import Mathlib

/-! SCMI quirks: range parsing, signatures, index build and resolution

A shallow embedding of `drivers/firmware/arm_scmi/quirks.c`.

Conventions of the embedding:

* a C string is the list of its bytes before the terminating NUL, each byte
  written as the `Char` with that code; a `char *` that may be NULL is an
  `Option (List Char)`;
* `u32`, `unsigned int` and `unsigned long` values are natural numbers, reduced
  modulo `2^32` or `2^64` where the C arithmetic can wrap;
* a pointer to a quirk descriptor is the position of the descriptor in
  `scmi_quirks_table`; an `hlist` bucket is the list of such positions, head
  first;
* the diagnostic `dev_info` line of `scmi_quirks_enable` is recorded as the
  position of the descriptor it names; `pr_debug`/`dev_dbg` lines are dropped;
* `kasprintf` is taken to succeed (no allocation failure).
-/

namespace ScmiQuirks

/-! ## Kernel helpers used by quirks.c -/

/-- Modelled from the spec: the errno constant EINVAL, whose header is not
among the sources (the spec's "InvalidRange" failure). -/
def EINVAL : Int := 22

/-- Modelled from the spec: the errno constant ERANGE, whose header is not
among the sources (a number that does not fit 32 bits is rejected). -/
def ERANGE : Int := 34

/-- Modelled from the spec: `isupper` of the kernel ctype table, whose body is
not among the sources. The spec only says that every character is lower-cased;
the table marks the ASCII capitals and the Latin-1 capitals 0xC0..0xDE
(0xD7 excepted) as upper case. -/
def isupper (c : Char) : Bool :=
  (65 ≤ c.toNat && c.toNat ≤ 90) ||
    (192 ≤ c.toNat && c.toNat ≤ 222 && c.toNat != 215)

/-- Modelled from the spec: `tolower`, whose body is not among the sources
("lower-case every character"): an upper-case byte is moved up by 0x20, any
other byte is unchanged. -/
def tolower (c : Char) : Char :=
  if isupper c then Char.ofNat (c.toNat + 32) else c

/-- Modelled from the spec: `partial_name_hash` of linux/stringhash.h, not
among the sources (the spec asks for "a standard case-insensitive string
hash"); `unsigned long` is 64 bits wide. -/
def partial_name_hash (c prevhash : Nat) : Nat :=
  ((prevhash + (c <<< 4) + (c >>> 4)) * 11) % 2 ^ 64

/-- Modelled from the spec: `end_name_hash` of linux/stringhash.h, not among
the sources: the 64-bit running hash is folded to 32 bits by a multiplication
with the 64-bit golden ratio, of which the top 32 bits are kept. -/
def end_name_hash (hash : Nat) : Nat :=
  ((hash * 0x61C8864680B583EB) % 2 ^ 64) >>> 32

/-- The number of bits of the quirks hashtable index. -/
def SCMI_QUIRKS_HT_SZ : Nat := 4

/-- Modelled from the spec: `hash_min` of linux/hashtable.h for a 32-bit key,
not among the sources: the bucket number of a key in a table of
`2 ^ bits` buckets. -/
def hash_min (val bits : Nat) : Nat :=
  ((val * 0x61C88647) % 2 ^ 32) >>> (32 - bits)

/-- Modelled from the spec: the value of one character as a digit in
`_parse_integer` of lib/kstrtox.c, not among the sources ("decimal or
0x-prefixed hexadecimal"): decimal digits, and the letters a..f in either
case. -/
def digit_val (c : Char) : Option Nat :=
  if 48 ≤ c.toNat ∧ c.toNat ≤ 57 then some (c.toNat - 48)
  else if 97 ≤ (c.toNat ||| 32) ∧ (c.toNat ||| 32) ≤ 102 then
    some ((c.toNat ||| 32) - 97 + 10)
  else none

/-- Modelled from the spec: `_parse_integer` of lib/kstrtox.c, not among the
sources: consumes the longest prefix of digits below `base`; returns the value
read, the number of characters consumed and the rest. The value is not
wrapped here: the routine raises its overflow flag exactly when the value read
does not fit 64 bits, which `kstrtouint` tests on the unwrapped value. -/
def parse_integer (base : Nat) : List Char → Nat → Nat → Nat × Nat × List Char
  | [], res, rv => (res, rv, [])
  | c :: s, res, rv =>
    match digit_val c with
    | none => (res, rv, c :: s)
    | some val =>
      if val ≥ base then (res, rv, c :: s)
      else parse_integer base s (res * base + val) (rv + 1)

/-- Modelled from the spec: `_parse_integer_fixup_radix` of lib/kstrtox.c
called with base 0, not among the sources: "0x" followed by a hex digit
selects base 16 and is skipped, another leading "0" selects base 8, anything
else base 10. -/
def parse_integer_fixup_radix (s : List Char) : Nat × List Char :=
  match s with
  | c0 :: c1 :: c2 :: rest =>
    if c0 = '0' then
      if (c1.toNat ||| 32) = 120 ∧ (digit_val c2).isSome then (16, c2 :: rest)
      else (8, s)
    else (10, s)
  | c0 :: _ => if c0 = '0' then (8, s) else (10, s)
  | [] => (10, s)

/-- Modelled from the spec: `kstrtouint(s, 0, &res)` of lib/kstrtox.c, not among
the sources. The spec says the bounds "are parsed as unsigned 32-bit integers
accepting standard numeric literal forms (decimal or 0x-prefixed
hexadecimal)". The kernel routine accepts one optional leading '+', then a
radix prefix, at least one digit, one optional trailing newline and nothing
else; a value that does not fit is rejected with -ERANGE, any other malformed
text with -EINVAL. On error the result is not written. -/
def kstrtouint (s : List Char) : Except Int Nat :=
  let s := match s with
    | '+' :: t => t
    | _ => s
  let (base, s) := parse_integer_fixup_radix s
  let (res, rv, rest) := parse_integer base s 0 0
  if res ≥ 2 ^ 64 then .error (-ERANGE)
  else if rv = 0 then .error (-EINVAL)
  else
    let rest := match rest with
      | '\n' :: t => t
      | _ => rest
    if rest ≠ [] then .error (-EINVAL)
    else if res ≥ 2 ^ 32 then .error (-ERANGE)
    else .ok res

/-- Modelled from the spec: `strchr`, not among the sources ("locate the
separator by scanning for `-`"): the position of the first occurrence of `c`
in a C string, or `none` (NULL) when it does not occur. -/
def strchr (s : List Char) (c : Char) : Option Nat :=
  match s with
  | [] => none
  | x :: t => if x = c then some 0 else (strchr t c).map (· + 1)

/-! ## Data model -/

/-- The quirk descriptor, `struct scmi_quirk`. The `hash` list node is
represented by the bucket lists of the table; `key` is the state of the static
key the descriptor points to. -/
structure scmi_quirk where
  enabled : Bool
  name : List Char
  compatible : Option (List Char)
  vendor : Option (List Char)
  sub_vendor_id : Option (List Char)
  impl_ver_range : Option (List Char)
  start_range : Nat
  end_range : Nat
  key : Bool
  hkey : Nat
  deriving DecidableEq, Repr

/-! ## Range parsing -/

/-- The function `scmi_quirk_range_parse`: returns the return code and the
descriptor as the call leaves it. -/
def scmi_quirk_range_parse (quirk : scmi_quirk) : Int × scmi_quirk :=
  let quirk := { quirk with start_range := 0, end_range := 0xFFFFFFFF }
  match quirk.impl_ver_range with
  | none => (0, quirk)
  | some text =>
    let len := text.length
    if len = 0 then (0, quirk)
    else
      let last := len - 1
      let sep := strchr text '-'
      -- `*sep = 0` cuts the stored text at the separator
      let head := match sep with
        | some k => text.take k
        | none => text
      let quirk := { quirk with impl_ver_range := some head }
      -- first numeric part: "-X" reads the end bound, otherwise the start
      let (ret, quirk) : Int × scmi_quirk :=
        if sep = some 0 then
          match kstrtouint (text.drop 1) with
          | .ok v => (0, { quirk with end_range := v })
          | .error e => (e, quirk)
        else
          match kstrtouint head with
          | .ok v => (0, { quirk with start_range := v })
          | .error e => (e, quirk)
      if ret ≠ 0 then (ret, quirk)
      else
        let (ret, quirk) : Int × scmi_quirk :=
          match sep with
          | none => (ret, { quirk with end_range := quirk.start_range })
          | some k =>
            if k ≠ last then
              match kstrtouint (text.drop (k + 1)) with
              | .ok v => (0, { quirk with end_range := v })
              | .error e => (e, quirk)
            else (ret, quirk)
        if quirk.start_range > quirk.end_range then (-EINVAL, quirk)
        else (ret, quirk)

/-! ## Signatures -/

/-- The text that `kasprintf` builds in `scmi_quirk_signature`: the three
fields between bars, a NULL field printed as the empty string. -/
def signature_string (compat vend sub_vend : Option (List Char)) : List Char :=
  '|' :: compat.getD [] ++ '|' :: vend.getD [] ++ '|' :: sub_vend.getD [] ++ ['|']

/-- The function `scmi_quirk_signature`: the name hash of the lower-cased
signature text. -/
def scmi_quirk_signature (compat vend sub_vend : Option (List Char)) : Nat :=
  let signature := signature_string compat vend sub_vend
  let hash := signature.foldl
    (fun hash c => partial_name_hash (tolower c).toNat hash) 0
  end_name_hash hash

/-! ## The index -/

/-- The static state of quirks.c: the table of descriptors and the hashtable
`scmi_quirks_ht`, a list of `2 ^ SCMI_QUIRKS_HT_SZ` buckets of positions in
the table. -/
structure quirks_state where
  scmi_quirks_table : List scmi_quirk
  scmi_quirks_ht : List (List Nat)
  deriving DecidableEq, Repr

/-- The hashtable as `DEFINE_READ_MOSTLY_HASHTABLE` leaves it: every bucket
empty. -/
def hash_empty : List (List Nat) := List.replicate (2 ^ SCMI_QUIRKS_HT_SZ) []

/-- Modelled from the spec: `hash_add` of linux/hashtable.h, not among the
sources: "insert the descriptor into the index bucket for that signature,
preserving registry order within a bucket". The node is put into the bucket
of its key behind the nodes already there. No source file here decides the
position within the bucket, and no statement below depends on it. -/
def hash_add (ht : List (List Nat)) (node key : Nat) : List (List Nat) :=
  ht.set (hash_min key SCMI_QUIRKS_HT_SZ)
    (ht.getD (hash_min key SCMI_QUIRKS_HT_SZ) [] ++ [node])

/-- Modelled from the spec: the nodes that `hash_for_each_possible` of
linux/hashtable.h, not among the sources, visits for a key ("look up that
bucket in the index ... for every descriptor in the bucket"): the bucket of
the key, from its head. -/
def hash_possible (ht : List (List Nat)) (key : Nat) : List Nat :=
  ht.getD (hash_min key SCMI_QUIRKS_HT_SZ) []

/-- The loop of `scmi_quirks_initialize` from table position `i` on: the
descriptors still to visit, the hashtable so far; returns the descriptors as
the loop leaves them and the final hashtable. -/
def scmi_quirks_initialize_from (i : Nat) :
    List scmi_quirk → List (List Nat) → List scmi_quirk × List (List Nat)
  | [], ht => ([], ht)
  | quirk :: rest, ht =>
    let (ret, quirk) := scmi_quirk_range_parse quirk
    if ret ≠ 0 then
      -- BAD RANGE: skipped
      let (table, ht) := scmi_quirks_initialize_from (i + 1) rest ht
      (quirk :: table, ht)
    else
      let quirk := { quirk with
        hkey := scmi_quirk_signature quirk.compatible quirk.vendor quirk.sub_vendor_id }
      let ht := hash_add ht i quirk.hkey
      let (table, ht) := scmi_quirks_initialize_from (i + 1) rest ht
      (quirk :: table, ht)

/-- The function `scmi_quirks_initialize`, run on a registry table with an
empty hashtable. -/
def scmi_quirks_initialize (table : List scmi_quirk) : quirks_state :=
  let (table, ht) := scmi_quirks_initialize_from 0 table hash_empty
  { scmi_quirks_table := table, scmi_quirks_ht := ht }

/-! ## Resolution -/

/-- The body of `hash_for_each_possible` in `scmi_quirks_enable`, run over the
nodes of one bucket for the probe signature `hkey`: the table and the list of
descriptors reported as enabled so far. -/
def scmi_quirks_enable_possible (hkey impl : Nat) :
    List Nat → List scmi_quirk × List Nat → List scmi_quirk × List Nat
  | [], acc => acc
  | node :: rest, (table, log) =>
    match table[node]? with
    | none => scmi_quirks_enable_possible hkey impl rest (table, log)
    | some quirk =>
      if quirk.enabled ∨ quirk.hkey ≠ hkey ∨
          impl < quirk.start_range ∨ impl > quirk.end_range then
        scmi_quirks_enable_possible hkey impl rest (table, log)
      else
        scmi_quirks_enable_possible hkey impl rest
          (table.set node { quirk with key := true, enabled := true },
            log ++ [node])

/-- The function `scmi_quirks_enable`: returns the state after the call and
the descriptors reported by "Enabling SCMI Quirk", in the order reported. -/
def scmi_quirks_enable (st : quirks_state)
    (compat vend subv : Option (List Char)) (impl : Nat) :
    quirks_state × List Nat :=
  let (table, log) := [1, 0].foldl (fun acc k =>
    let compat_sel := if k > 0 then compat else none
    [3, 2, 1].foldl (fun acc i =>
      let hkey := scmi_quirk_signature compat_sel
        (if i > 1 then vend else none) (if i > 2 then subv else none)
      scmi_quirks_enable_possible hkey impl
        (hash_possible st.scmi_quirks_ht hkey) acc) acc)
    (st.scmi_quirks_table, [])
  ({ st with scmi_quirks_table := table }, log)

/-- A device identity, the arguments of one `scmi_quirks_enable` call. -/
structure scmi_identity where
  compat : Option (List Char)
  vend : Option (List Char)
  subv : Option (List Char)
  impl : Nat
  deriving DecidableEq, Repr

/-- A serialized sequence of `scmi_quirks_enable` calls, one per identity:
the final state and all reports, in order. -/
def scmi_quirks_enable_seq :
    quirks_state → List scmi_identity → quirks_state × List Nat
  | st, [] => (st, [])
  | st, id :: ids =>
    let (st1, log1) := scmi_quirks_enable st id.compat id.vend id.subv id.impl
    let (st2, log2) := scmi_quirks_enable_seq st1 ids
    (st2, log1 ++ log2)

/-! ## Registry entries -/

/-- The descriptor that `DEFINE_SCMI_QUIRK(_qn, _comp, _ven, _sub, _impl)`
declares: the named fields as given, every other field zero, the static key
false. -/
def DEFINE_SCMI_QUIRK (qn : List Char) (comp ven sub impl : Option (List Char)) :
    scmi_quirk :=
  { enabled := false
    name := "quirk_".toList ++ qn
    compatible := comp
    vendor := ven
    sub_vendor_id := sub
    impl_ver_range := impl
    start_range := 0
    end_range := 0
    key := false
    hkey := 0 }

/-- The two entries of the global quirks table of quirks.c. -/
def scmi_quirks_table_init : List scmi_quirk :=
  [DEFINE_SCMI_QUIRK "clock_rates_triplet_out_of_spec".toList none none none none,
   DEFINE_SCMI_QUIRK "perf_level_get_fc_force".toList
     none (some "Qualcomm".toList) none (some "0x20000-".toList)]

/-- The registry of the third end-to-end scenario: two descriptors with the
same pattern and the ranges "0-50" and "51-100". -/
def scenario3_table : List scmi_quirk :=
  [DEFINE_SCMI_QUIRK "low".toList (some "c".toList) (some "v".toList) (some "s".toList)
     (some "0-50".toList),
   DEFINE_SCMI_QUIRK "high".toList (some "c".toList) (some "v".toList) (some "s".toList)
     (some "51-100".toList)]

/-- The registry of the first end-to-end scenario: one quirk that is wildcard
in every field and has no range restriction. -/
def scenario1_table : List scmi_quirk :=
  [DEFINE_SCMI_QUIRK "q1".toList none none none none]

/-- The registry of the second end-to-end scenario: one quirk restricted to
the vendor "Acme" and the range "100-200". -/
def scenario2_table : List scmi_quirk :=
  [DEFINE_SCMI_QUIRK "q2".toList none (some "Acme".toList) none (some "100-200".toList)]

/-- The built-in registry preceded by a descriptor with the inverted range
"10-5". -/
def bad_range_table : List scmi_quirk :=
  DEFINE_SCMI_QUIRK "bad_range".toList none none none (some "10-5".toList) ::
    scmi_quirks_table_init

/-- The identity of the second scenario: an empty sub-vendor, version 150. -/
def acme_150 : scmi_identity :=
  { compat := some "whatever".toList, vend := some "Acme".toList,
    subv := some [], impl := 150 }

/-- The identity of the second scenario with version 250. -/
def acme_250 : scmi_identity :=
  { compat := some "whatever".toList, vend := some "Acme".toList,
    subv := some [], impl := 250 }

/-- The identity of the first scenario. -/
def xyz_42 : scmi_identity :=
  { compat := some "x".toList, vend := some "y".toList, subv := some "z".toList,
    impl := 42 }

/-- A registry with one quirk that fixes only the sub-vendor: compatible and
vendor are NULL ("any"), no range restriction. -/
def sub_vendor_table : List scmi_quirk :=
  [DEFINE_SCMI_QUIRK "sub_only".toList none none (some "sub".toList) none]

/-- An identity with the sub-vendor "sub" and a non-empty vendor. -/
def sub_of_y : scmi_identity :=
  { compat := some "x".toList, vend := some "y".toList, subv := some "sub".toList,
    impl := 0 }

/-! ## Vocabulary of the statements -/

/-- The outcome of `scmi_quirk_range_parse` on a descriptor whose range text
is `text`: the return code and the two bounds it leaves. -/
def parsed_range (quirk : scmi_quirk) (text : Option (List Char)) : Int × Nat × Nat :=
  let r := scmi_quirk_range_parse { quirk with impl_ver_range := text }
  (r.1, r.2.start_range, r.2.end_range)

/-- The value the number parser accepts a text with, if it accepts it. -/
def accepted (s : List Char) : Option Nat :=
  match kstrtouint s with
  | .ok v => some v
  | .error _ => none

/-- A text split at the first occurrence of `c`: the part before it and, when
`c` occurs, the part after it. -/
def split_first (c : Char) : List Char → List Char × Option (List Char)
  | [] => ([], none)
  | x :: t =>
    if x = c then ([], some t)
    else ((x :: (split_first c t).1), (split_first c t).2)

/-- The error condition of the range grammar, in the words of the
specification: with the text split at its first '-', a required numeric part
is rejected, or both bounds are accepted with start > end. The required parts
are the text after a leading '-'; otherwise the text before the '-' (the whole
text without one) and, unless the '-' is last, the text after it. -/
def range_text_rejected (text : List Char) : Bool :=
  match split_first '-' text with
  | (_, none) => (accepted text).isNone
  | (before, some after) =>
    if before = [] then (accepted after).isNone
    else if after = [] then (accepted before).isNone
    else
      match accepted before, accepted after with
      | some x, some y => decide (x > y)
      | _, _ => true

/-- The effect of `static_branch_enable(quirk->key); quirk->enabled = true`. -/
def quirk_set_enabled (quirk : scmi_quirk) : scmi_quirk :=
  { quirk with key := true, enabled := true }

/-- The conditions of the resolver other than the flag: the descriptor's
stored signature is the probe signature and the version is in its range. -/
def quirk_matches (hkey impl : Nat) (quirk : scmi_quirk) : Prop :=
  quirk.hkey = hkey ∧ quirk.start_range ≤ impl ∧ impl ≤ quirk.end_range

instance (hkey impl : Nat) (quirk : scmi_quirk) :
    Decidable (quirk_matches hkey impl quirk) := by
  unfold quirk_matches; infer_instance

/-- The six probe signatures of one `scmi_quirks_enable` call, in the order
the two loops compute them. -/
def probe_signatures (compat vend subv : Option (List Char)) : List Nat :=
  [scmi_quirk_signature compat vend subv,
   scmi_quirk_signature compat vend none,
   scmi_quirk_signature compat none none,
   scmi_quirk_signature none vend subv,
   scmi_quirk_signature none vend none,
   scmi_quirk_signature none none none]

/-- The lookups of `scmi_quirks_enable` for a list of probe signatures, one
bucket walk per signature. -/
def enable_probes (ht : List (List Nat)) (impl : Nat) (probes : List Nat)
    (acc : List scmi_quirk × List Nat) : List scmi_quirk × List Nat :=
  probes.foldl (fun acc hkey =>
    scmi_quirks_enable_possible hkey impl (hash_possible ht hkey) acc) acc

/-- Some probe signature of the list finds descriptor `i` in its bucket and
matches it. -/
def probes_match (ht : List (List Nat)) (impl : Nat) (probes : List Nat) (i : Nat)
    (q : scmi_quirk) : Prop :=
  ∃ h ∈ probes, i ∈ hash_possible ht h ∧ quirk_matches h impl q

instance (ht : List (List Nat)) (impl : Nat) (probes : List Nat) (i : Nat)
    (q : scmi_quirk) : Decidable (probes_match ht impl probes i q) := by
  unfold probes_match; infer_instance

/-- One descriptor as the body of the `scmi_quirks_initialize` loop leaves
it. -/
def initialize_quirk (quirk : scmi_quirk) : scmi_quirk :=
  let (ret, quirk) := scmi_quirk_range_parse quirk
  if ret ≠ 0 then quirk
  else { quirk with
    hkey := scmi_quirk_signature quirk.compatible quirk.vendor quirk.sub_vendor_id }

/-- The table positions, counted from `i`, of the descriptors of a registry
whose range parses and whose signature falls into bucket `b`, in registry
order. -/
def indexed_from (i b : Nat) : List scmi_quirk → List Nat
  | [] => []
  | quirk :: rest =>
    if (scmi_quirk_range_parse quirk).1 = 0 ∧
        hash_min (initialize_quirk quirk).hkey SCMI_QUIRKS_HT_SZ = b then
      i :: indexed_from (i + 1) b rest
    else indexed_from (i + 1) b rest

/-- Descriptor `i` is in the index: some bucket of the hashtable holds it. -/
def indexed (st : quirks_state) (i : Nat) : Prop :=
  ∃ bucket ∈ st.scmi_quirks_ht, i ∈ bucket

instance (st : quirks_state) (i : Nat) : Decidable (indexed st i) := by
  unfold indexed; infer_instance

/-- The flag of descriptor `i` is set. -/
def enabled_at (st : quirks_state) (i : Nat) : Prop :=
  ∃ q, st.scmi_quirks_table[i]? = some q ∧ q.enabled = true

/-- What one `scmi_quirks_enable` call newly enables: a descriptor that is not
yet enabled, is in the index, stores one of the six probe signatures and has
the version in its range. -/
def newly_enabled (st : quirks_state) (compat vend subv : Option (List Char))
    (impl i : Nat) (d : scmi_quirk) : Prop :=
  d.enabled = false ∧ indexed st i ∧
    d.hkey ∈ probe_signatures compat vend subv ∧
    d.start_range ≤ impl ∧ impl ≤ d.end_range

instance (st : quirks_state) (compat vend subv : Option (List Char))
    (impl i : Nat) (d : scmi_quirk) :
    Decidable (newly_enabled st compat vend subv impl i d) := by
  unfold newly_enabled; infer_instance

/-- The characters that `scmi_quirk_signature` feeds to the hash: the
signature text, lower-cased. -/
def lowered_signature (compat vend sub_vend : Option (List Char)) : List Char :=
  (signature_string compat vend sub_vend).map tolower

/-! ## Lemmas on the helpers -/

theorem strchr_eq_none {s : List Char} {c : Char} (h : c ∉ s) : strchr s c = none := by
  induction s with
  | nil => rfl
  | cons x t ih =>
    simp only [List.mem_cons, not_or] at h
    simp [strchr, Ne.symm h.1, ih h.2]

theorem strchr_append {a : List Char} {c : Char} (b : List Char) (h : c ∉ a) :
    strchr (a ++ c :: b) c = some a.length := by
  induction a with
  | nil => simp [strchr]
  | cons x t ih =>
    simp only [List.mem_cons, not_or] at h
    simp [strchr, Ne.symm h.1, ih h.2]

theorem strchr_some {s : List Char} {c : Char} {k : Nat} (h : strchr s c = some k) :
    k < s.length ∧ c ∉ s.take k ∧ s = s.take k ++ c :: s.drop (k + 1) := by
  induction s generalizing k with
  | nil => simp [strchr] at h
  | cons x t ih =>
    by_cases hx : x = c
    · simp [strchr, hx] at h
      subst h
      simp [hx]
    · simp only [strchr, hx, if_false, Option.map_eq_some'] at h
      obtain ⟨j, hj, rfl⟩ := h
      obtain ⟨h1, h2, h3⟩ := ih hj
      refine ⟨by simpa using h1, ?_, ?_⟩
      · simp [List.take_succ_cons, h2, Ne.symm hx]
      · simp only [List.take_succ_cons, List.drop_succ_cons, List.cons_append]
        rw [← h3]

theorem parse_integer_spec (base : Nat) (s : List Char) (res rv : Nat) :
    ∃ pre, s = pre ++ (parse_integer base s res rv).2.2 ∧
      (∀ c ∈ pre, (digit_val c).isSome) ∧
      (parse_integer base s res rv).2.1 = rv + pre.length := by
  induction s generalizing res rv with
  | nil => exact ⟨[], by simp [parse_integer]⟩
  | cons c t ih =>
    unfold parse_integer
    cases hd : digit_val c with
    | none => exact ⟨[], by simp⟩
    | some v =>
      by_cases hv : v ≥ base
      · exact ⟨[], by simp [hv]⟩
      · obtain ⟨pre, h1, h2, h3⟩ := ih (res * base + v) (rv + 1)
        refine ⟨c :: pre, ?_, ?_, ?_⟩
        · simp only [hv, if_false, List.cons_append]
          rw [← h1]
        · intro d hd'
          rcases List.mem_cons.1 hd' with rfl | hd'
          · simp [hd]
          · exact h2 d hd'
        · simp only [hv, if_false, h3, List.length_cons]; omega


theorem fixup_radix_dash (s : List Char) (h : '-' ∈ s) :
    '-' ∈ (parse_integer_fixup_radix s).2 := by
  unfold parse_integer_fixup_radix
  split
  · rename_i c0 c1 c2 rest
    split_ifs with h0 h1
    · rcases List.mem_cons.1 h with h' | h'
      · exact absurd (h0 ▸ h'.symm : '0' = '-') (by decide)
      · rcases List.mem_cons.1 h' with h'' | h''
        · rw [← h''] at h1
          exact absurd h1.1 (by decide)
        · exact h''
    · exact h
    · exact h
  · split_ifs <;> exact h
  · exact h

theorem kstrtouint_ok {s : List Char} {v : Nat} (h : kstrtouint s = .ok v) :
    s ≠ [] ∧ '-' ∉ s ∧ v < 2 ^ 32 := by
  unfold kstrtouint at h
  simp only at h
  generalize hs1 : (match s with | '+' :: t => t | _ => s) = s1 at h
  obtain ⟨pre, hpre, hdig, hrv⟩ :=
    parse_integer_spec (parse_integer_fixup_radix s1).1 (parse_integer_fixup_radix s1).2 0 0
  generalize hp : parse_integer (parse_integer_fixup_radix s1).1
    (parse_integer_fixup_radix s1).2 0 0 = p at h hpre hrv
  obtain ⟨res, rv, rest⟩ := p
  simp only at h hpre hrv
  split_ifs at h with h1 h2 h3 h4
  simp only [Except.ok.injEq] at h
  subst h
  have hrest : rest = [] ∨ rest = ['\n'] := by
    revert h3
    rcases rest with _ | ⟨c, t⟩
    · simp
    · by_cases hc : c = '\n'
      · subst hc; simp
      · intro h3; exfalso; apply h3
        split
        · rename_i heq; simp at heq; exact absurd heq.1 hc
        · simp
  have hdash1 : '-' ∉ s1 := by
    intro hmem
    have := fixup_radix_dash s1 hmem
    rw [hpre] at this
    rcases List.mem_append.1 this with hm | hm
    · have := hdig _ hm
      revert this; decide
    · rcases hrest with hr | hr <;> rw [hr] at hm
      · simp at hm
      · revert hm; decide
  have hne1 : s1 ≠ [] := by
    intro he
    subst he
    simp [parse_integer_fixup_radix, parse_integer] at hp
    omega
  refine ⟨?_, ?_, by omega⟩
  · rintro rfl
    simp at hs1
    exact hne1 hs1
  · intro hmem
    apply hdash1
    rw [← hs1]
    split
    · rename_i t
      rcases List.mem_cons.1 hmem with h' | h'
      · exact absurd h' (by decide)
      · exact h'
    · exact hmem

theorem parsed_range_single (q : scmi_quirk) {X : List Char} {x : Nat}
    (hX : kstrtouint X = .ok x) : parsed_range q (some X) = (0, x, x) := by
  obtain ⟨hne, hdash, _⟩ := kstrtouint_ok hX
  have hlen : X.length ≠ 0 := by simpa using hne
  simp [parsed_range, scmi_quirk_range_parse, hlen, strchr_eq_none hdash, hX]

theorem parsed_range_from (q : scmi_quirk) {X : List Char} {x : Nat}
    (hX : kstrtouint X = .ok x) :
    parsed_range q (some (X ++ ['-'])) = (0, x, 0xFFFFFFFF) := by
  obtain ⟨hne, hdash, hlt⟩ := kstrtouint_ok hX
  have hlen : X.length ≠ 0 := by simpa using hne
  have hle : ¬ (4294967295 < x) := by omega
  simp [parsed_range, scmi_quirk_range_parse, hlen, strchr_append _ hdash, hX, hle]

theorem parsed_range_upto (q : scmi_quirk) {X : List Char} {x : Nat}
    (hX : kstrtouint X = .ok x) :
    parsed_range q (some ('-' :: X)) = (0, 0, x) := by
  obtain ⟨hne, hdash, hlt⟩ := kstrtouint_ok hX
  have hlen : X.length ≠ 0 := by simpa using hne
  simp [parsed_range, scmi_quirk_range_parse, hlen, strchr, hX]

theorem parsed_range_both (q : scmi_quirk) {X Y : List Char} {x y : Nat}
    (hX : kstrtouint X = .ok x) (hY : kstrtouint Y = .ok y) (hxy : x ≤ y) :
    parsed_range q (some (X ++ '-' :: Y)) = (0, x, y) := by
  obtain ⟨hne, hdash, hlt⟩ := kstrtouint_ok hX
  obtain ⟨hneY, _, _⟩ := kstrtouint_ok hY
  have hlen : X.length ≠ 0 := by simpa using hne
  have hlenY : Y.length ≠ 0 := by simpa using hneY
  have hle : ¬ (y < x) := by omega
  simp [parsed_range, scmi_quirk_range_parse, hlen, strchr_append _ hdash, hX, hY, hle, hlenY]


theorem kstrtouint_error {s : List Char} {e : Int} (h : kstrtouint s = .error e) :
    e ≠ 0 := by
  unfold kstrtouint at h
  simp only at h
  split_ifs at h <;> simp only [Except.error.injEq, reduceCtorEq] at h <;>
    (subst h; decide)

theorem strchr_none_split {s : List Char} {c : Char} (h : strchr s c = none) :
    split_first c s = (s, none) := by
  induction s with
  | nil => rfl
  | cons x t ih =>
    by_cases hx : x = c
    · simp [strchr, hx] at h
    · simp only [strchr, hx, if_false, Option.map_eq_none'] at h
      simp [split_first, hx, ih h]

theorem strchr_some_split {s : List Char} {c : Char} {k : Nat} (h : strchr s c = some k) :
    split_first c s = (s.take k, some (s.drop (k + 1))) := by
  induction s generalizing k with
  | nil => simp [strchr] at h
  | cons x t ih =>
    by_cases hx : x = c
    · simp [strchr, hx] at h
      subst h
      simp [split_first, hx]
    · simp only [strchr, hx, if_false, Option.map_eq_some'] at h
      obtain ⟨j, hj, rfl⟩ := h
      simp [split_first, hx, ih hj]

theorem range_parse_ret_iff (q : scmi_quirk) (text : List Char) (h : text ≠ []) :
    (scmi_quirk_range_parse { q with impl_ver_range := some text }).1 ≠ 0 ↔
      range_text_rejected text = true := by
  have hlen : text.length ≠ 0 := by simpa using h
  unfold range_text_rejected
  cases hs : strchr text '-' with
  | none =>
    rw [strchr_none_split hs]
    cases hk : kstrtouint text with
    | error e =>
      have := kstrtouint_error hk
      simp [scmi_quirk_range_parse, hlen, hs, hk, accepted, this]
    | ok v =>
      simp [scmi_quirk_range_parse, hlen, hs, hk, accepted]
  | some k =>
    rw [strchr_some_split hs]
    obtain ⟨hk1, hk2, hk3⟩ := strchr_some hs
    by_cases hk0 : k = 0
    · subst hk0
      simp only [Nat.zero_add, List.drop_one]
      cases hk : kstrtouint text.tail with
      | error e =>
        have := kstrtouint_error hk
        simp [scmi_quirk_range_parse, hlen, hs, hk, accepted, this]
      | ok v =>
        by_cases hl : 0 = text.length - 1
        · simp [scmi_quirk_range_parse, hlen, hs, hk, accepted, ← hl]
        · simp [scmi_quirk_range_parse, hlen, hs, hk, accepted, hl]
    · have htk : text.take k ≠ [] := by
        simp only [ne_eq, List.take_eq_nil_iff, not_or]
        exact ⟨hk0, h⟩
      by_cases hl : k = text.length - 1
      · have hd : text.drop (k + 1) = [] := by
          apply List.drop_eq_nil_of_le; omega
        cases hk : kstrtouint (text.take k) with
        | error e =>
          have := kstrtouint_error hk
          simp [scmi_quirk_range_parse, hlen, hs, hk, accepted, this, hk0, htk, hd]
        | ok v =>
          have hv := (kstrtouint_ok hk).2.2
          have hle : ¬ (4294967295 < v) := by omega
          simp [scmi_quirk_range_parse, hlen, hs, hk, accepted, hk0, htk, hd, ← hl, hle]
      · have hd : text.drop (k + 1) ≠ [] := by
          simp only [ne_eq, List.drop_eq_nil_iff, not_le]; omega
        cases hk : kstrtouint (text.take k) with
        | error e =>
          have := kstrtouint_error hk
          simp [scmi_quirk_range_parse, hlen, hs, hk, accepted, this, hk0, htk, hd]
        | ok v =>
          cases hk' : kstrtouint (text.drop (k + 1)) with
          | error e =>
            have := kstrtouint_error hk'
            have hv := (kstrtouint_ok hk).2.2
            have hle : ¬ (4294967295 < v) := by omega
            simp [scmi_quirk_range_parse, hlen, hs, hk, hk', accepted, this, hk0, htk, hd, hl, hle]
          | ok w =>
            by_cases hvw : w < v
            · simp [scmi_quirk_range_parse, hlen, hs, hk, hk', accepted, hk0, htk, hd, hl, hvw, EINVAL]
            · simp [scmi_quirk_range_parse, hlen, hs, hk, hk', accepted, hk0, htk, hd, hl, hvw]

theorem scmi_quirks_enable_eq (st : quirks_state) (compat vend subv : Option (List Char))
    (impl : Nat) :
    scmi_quirks_enable st compat vend subv impl =
      ({ st with scmi_quirks_table :=
          (enable_probes st.scmi_quirks_ht impl (probe_signatures compat vend subv)
            (st.scmi_quirks_table, [])).1 },
        (enable_probes st.scmi_quirks_ht impl (probe_signatures compat vend subv)
            (st.scmi_quirks_table, [])).2) := by
  rfl

theorem quirk_matches_set_enabled (hkey impl : Nat) (q : scmi_quirk) :
    quirk_matches hkey impl (quirk_set_enabled q) ↔ quirk_matches hkey impl q := Iff.rfl

theorem enable_possible_table (hkey impl : Nat) (bucket : List Nat) :
    ∀ (table : List scmi_quirk) (log : List Nat) (i : Nat),
      (scmi_quirks_enable_possible hkey impl bucket (table, log)).1[i]? =
        (table[i]?).map (fun q =>
          if q.enabled = false ∧ i ∈ bucket ∧ quirk_matches hkey impl q
          then quirk_set_enabled q else q) := by
  induction bucket with
  | nil => intro table log i; simp [scmi_quirks_enable_possible]
  | cons node rest ih =>
    intro table log i
    unfold scmi_quirks_enable_possible
    cases hn : table[node]? with
    | none =>
      simp only [ih]
      cases hi : table[i]? with
      | none => rfl
      | some q =>
        have hne : i ≠ node := by rintro rfl; rw [hn] at hi; cases hi
        simp [hne]
    | some quirk =>
      simp only
      split_ifs with hc
      · rw [ih]
        cases hi : table[i]? with
        | none => rfl
        | some q =>
          by_cases hin : i = node
          · subst hin
            rw [hn] at hi; cases hi
            have : ¬ (quirk.enabled = false ∧ quirk_matches hkey impl quirk) := by
              unfold quirk_matches
              rintro ⟨h1, h2, h3, h4⟩
              rcases hc with h | h | h | h
              · rw [h1] at h; cases h
              · exact h h2
              · omega
              · omega
            have h2 : ∀ p : Prop, ¬ (quirk.enabled = false ∧ p ∧ quirk_matches hkey impl quirk) :=
              fun _ h => this ⟨h.1, h.2.2⟩
            simp only [Option.map_some', if_neg (h2 _)]
          · simp [hin]
      · rw [ih]
        have hm : quirk.enabled = false ∧ quirk_matches hkey impl quirk := by
          unfold quirk_matches
          simp only [not_or, not_lt, Bool.not_eq_true, ne_eq, not_not] at hc
          exact ⟨hc.1, hc.2.1, hc.2.2.1, hc.2.2.2⟩
        have hlt : node < table.length := by
          by_contra hge
          rw [List.getElem?_eq_none (by omega)] at hn
          cases hn
        by_cases hin : i = node
        · subst hin
          simp [List.getElem?_set_self hlt, hn, hm, quirk_set_enabled]
        · rw [List.getElem?_set_ne (Ne.symm hin)]
          cases hi : table[i]? with
          | none => rfl
          | some q => simp [hin]


theorem enable_possible_log (hkey impl : Nat) (bucket : List Nat) :
    ∀ (table : List scmi_quirk) (log : List Nat),
      ∃ new, (scmi_quirks_enable_possible hkey impl bucket (table, log)).2 = log ++ new ∧
        new.Nodup ∧
        ∀ i, i ∈ new ↔ (i ∈ bucket ∧ ∃ q, table[i]? = some q ∧ q.enabled = false ∧
          quirk_matches hkey impl q) := by
  induction bucket with
  | nil => intro table log; exact ⟨[], by simp [scmi_quirks_enable_possible]⟩
  | cons node rest ih =>
    intro table log
    unfold scmi_quirks_enable_possible
    cases hn : table[node]? with
    | none =>
      obtain ⟨new, h1, h2, h3⟩ := ih table log
      refine ⟨new, h1, h2, fun i => ?_⟩
      rw [h3 i]
      constructor
      · rintro ⟨ha, hb⟩; exact ⟨List.mem_cons_of_mem _ ha, hb⟩
      · rintro ⟨ha, q, hq, hb⟩
        rcases List.mem_cons.1 ha with rfl | ha
        · rw [hn] at hq; cases hq
        · exact ⟨ha, q, hq, hb⟩
    | some quirk =>
      simp only
      split_ifs with hc
      · obtain ⟨new, h1, h2, h3⟩ := ih table log
        refine ⟨new, h1, h2, fun i => ?_⟩
        rw [h3 i]
        constructor
        · rintro ⟨ha, hb⟩; exact ⟨List.mem_cons_of_mem _ ha, hb⟩
        · rintro ⟨ha, q, hq, hb⟩
          rcases List.mem_cons.1 ha with rfl | ha
          · rw [hn] at hq; cases hq
            exfalso
            obtain ⟨e1, e2, e3, e4⟩ := hb
            rcases hc with h | h | h | h
            · rw [e1] at h; cases h
            · exact h e2
            · omega
            · omega
          · exact ⟨ha, q, hq, hb⟩
      · have hm : quirk.enabled = false ∧ quirk_matches hkey impl quirk := by
          unfold quirk_matches
          simp only [not_or, not_lt, Bool.not_eq_true, ne_eq, not_not] at hc
          exact ⟨hc.1, hc.2.1, hc.2.2.1, hc.2.2.2⟩
        have hlt : node < table.length := by
          by_contra hge
          rw [List.getElem?_eq_none (by omega)] at hn
          cases hn
        obtain ⟨new, h1, h2, h3⟩ :=
          ih (table.set node { quirk with key := true, enabled := true }) (log ++ [node])
        refine ⟨node :: new, by rw [h1]; simp, ?_, fun i => ?_⟩
        · refine List.nodup_cons.2 ⟨?_, h2⟩
          intro hmem
          obtain ⟨_, q, hq, hq2, _⟩ := (h3 node).1 hmem
          rw [List.getElem?_set_self hlt] at hq
          cases hq
          cases hq2
        · rw [List.mem_cons, h3 i]
          by_cases hin : i = node
          · subst hin
            simp only [true_or, List.mem_cons, true_and]
            exact ⟨fun _ => ⟨quirk, hn, hm⟩, fun _ => trivial⟩
          · rw [List.getElem?_set_ne (Ne.symm hin)]
            simp [hin]

theorem enable_probes_spec (ht : List (List Nat)) (impl : Nat) (probes : List Nat) :
    ∀ (table : List scmi_quirk) (log : List Nat),
      (∀ i, (enable_probes ht impl probes (table, log)).1[i]? =
        (table[i]?).map (fun q =>
          if q.enabled = false ∧ probes_match ht impl probes i q
          then quirk_set_enabled q else q)) ∧
      ∃ new, (enable_probes ht impl probes (table, log)).2 = log ++ new ∧ new.Nodup ∧
        ∀ i, i ∈ new ↔ ∃ q, table[i]? = some q ∧ q.enabled = false ∧
          probes_match ht impl probes i q := by
  induction probes with
  | nil =>
    intro table log
    refine ⟨fun i => ?_, [], by simp [enable_probes], List.nodup_nil, fun i => ?_⟩
    · cases hi : table[i]? <;> simp [enable_probes, probes_match, hi]
    · simp [probes_match]
  | cons h rest ih =>
    intro table log
    have hstep : enable_probes ht impl (h :: rest) (table, log) =
        enable_probes ht impl rest
          (scmi_quirks_enable_possible h impl (hash_possible ht h) (table, log)) := rfl
    rw [hstep]
    have ht1 := enable_possible_table h impl (hash_possible ht h) table log
    obtain ⟨new1, hl1, hnd1, hmem1⟩ := enable_possible_log h impl (hash_possible ht h) table log
    generalize scmi_quirks_enable_possible h impl (hash_possible ht h) (table, log) = r1
      at ht1 hl1
    obtain ⟨table1, log1⟩ := r1
    simp only at ht1 hl1
    obtain ⟨htab, new2, hl2, hnd2, hmem2⟩ := ih table1 log1
    have hpm : ∀ i q, probes_match ht impl (h :: rest) i q ↔
        ((i ∈ hash_possible ht h ∧ quirk_matches h impl q) ∨ probes_match ht impl rest i q) := by
      intro i q; simp [probes_match]
    refine ⟨fun i => ?_, new1 ++ new2, ?_, ?_, fun i => ?_⟩
    · rw [htab, ht1]
      cases hi : table[i]? with
      | none => rfl
      | some q =>
        simp only [Option.map_some', Option.some.injEq]
        by_cases he : q.enabled = false
        · by_cases h1 : i ∈ hash_possible ht h ∧ quirk_matches h impl q
          · have hA : q.enabled = false ∧ i ∈ hash_possible ht h ∧ quirk_matches h impl q :=
              ⟨he, h1⟩
            have hB : q.enabled = false ∧ probes_match ht impl (h :: rest) i q :=
              ⟨he, (hpm i q).2 (Or.inl h1)⟩
            have hC : ¬ ((quirk_set_enabled q).enabled = false ∧
                probes_match ht impl rest i (quirk_set_enabled q)) := by
              rintro ⟨hh, _⟩; cases hh
            rw [if_pos hA, if_pos hB, if_neg hC]
          · have hA : ¬ (q.enabled = false ∧ i ∈ hash_possible ht h ∧ quirk_matches h impl q) :=
              fun hh => h1 hh.2
            rw [if_neg hA]
            by_cases h2 : probes_match ht impl rest i q
            · have hB : q.enabled = false ∧ probes_match ht impl rest i q := ⟨he, h2⟩
              have hC : q.enabled = false ∧ probes_match ht impl (h :: rest) i q :=
                ⟨he, (hpm i q).2 (Or.inr h2)⟩
              rw [if_pos hB, if_pos hC]
            · have hB : ¬ (q.enabled = false ∧ probes_match ht impl rest i q) :=
                fun hh => h2 hh.2
              have hC : ¬ (q.enabled = false ∧ probes_match ht impl (h :: rest) i q) := by
                rintro ⟨_, hh⟩
                rcases (hpm i q).1 hh with hh | hh
                · exact h1 hh
                · exact h2 hh
              rw [if_neg hB, if_neg hC]
        · have hA : ¬ (q.enabled = false ∧ i ∈ hash_possible ht h ∧ quirk_matches h impl q) :=
            fun hh => he hh.1
          have hB : ¬ (q.enabled = false ∧ probes_match ht impl rest i q) :=
            fun hh => he hh.1
          have hC : ¬ (q.enabled = false ∧ probes_match ht impl (h :: rest) i q) :=
            fun hh => he hh.1
          rw [if_neg hA, if_neg hB, if_neg hC]
    · rw [hl2, hl1, List.append_assoc]
    · refine List.Nodup.append hnd1 hnd2 ?_
      intro i hi1 hi2
      obtain ⟨_, q, hq, he, hm⟩ := (hmem1 i).1 hi1
      obtain ⟨q1, hq1, he1, _⟩ := (hmem2 i).1 hi2
      have := ht1 i
      rw [hq1, hq] at this
      simp only [Option.map_some', Option.some.injEq] at this
      have hA : q.enabled = false ∧ i ∈ hash_possible ht h ∧ quirk_matches h impl q :=
        ⟨he, ((hmem1 i).1 hi1).1, hm⟩
      rw [if_pos hA] at this
      rw [this] at he1
      cases he1
    · rw [List.mem_append, hmem1 i, hmem2 i]
      have := ht1 i
      constructor
      · rintro (⟨hb, q, hq, he, hm⟩ | ⟨q1, hq1, he1, hm1⟩)
        · exact ⟨q, hq, he, (hpm i q).2 (Or.inl ⟨hb, hm⟩)⟩
        · cases hq : table[i]? with
          | none => rw [hq, hq1] at this; cases this
          | some q =>
            rw [hq, hq1] at this
            simp only [Option.map_some', Option.some.injEq] at this
            split_ifs at this with hc
            · rw [this] at he1; cases he1
            · subst this
              exact ⟨q1, rfl, he1, (hpm i q1).2 (Or.inr hm1)⟩
      · rintro ⟨q, hq, he, hm⟩
        rcases (hpm i q).1 hm with hh | hh
        · exact Or.inl ⟨hh.1, q, hq, he, hh.2⟩
        · by_cases h1 : i ∈ hash_possible ht h ∧ quirk_matches h impl q
          · exact Or.inl ⟨h1.1, q, hq, he, h1.2⟩
          · right
            rw [hq] at this
            simp only [Option.map_some'] at this
            have hA : ¬ (q.enabled = false ∧ i ∈ hash_possible ht h ∧
                quirk_matches h impl q) := fun hc => h1 hc.2
            rw [if_neg hA] at this
            exact ⟨q, this, he, hh⟩


theorem hash_min_lt (val : Nat) : hash_min val SCMI_QUIRKS_HT_SZ < 16 := by
  simp only [hash_min, SCMI_QUIRKS_HT_SZ, Nat.shiftRight_eq_div_pow]
  omega

theorem hash_add_length (ht : List (List Nat)) (node key : Nat) :
    (hash_add ht node key).length = ht.length := by
  simp [hash_add]

theorem hash_add_getD (ht : List (List Nat)) (node key b : Nat) (hlen : ht.length = 16) :
    (hash_add ht node key).getD b [] =
      if hash_min key SCMI_QUIRKS_HT_SZ = b then ht.getD b [] ++ [node] else ht.getD b [] := by
  have hlt := hash_min_lt key
  unfold hash_add
  by_cases hb : hash_min key SCMI_QUIRKS_HT_SZ = b
  · subst hb
    simp [List.getD_eq_getElem?_getD, List.getElem?_set_self (hlen ▸ hlt)]
  · simp [List.getD_eq_getElem?_getD, List.getElem?_set_ne hb, hb]

theorem range_parse_fields (q : scmi_quirk) :
    ∃ s e t, (scmi_quirk_range_parse q).2 =
      { q with start_range := s, end_range := e, impl_ver_range := t } := by
  unfold scmi_quirk_range_parse
  cases q.impl_ver_range with
  | none => exact ⟨_, _, _, rfl⟩
  | some text =>
    simp only
    by_cases hlen : text.length = 0
    · rw [if_pos hlen]; exact ⟨_, _, _, rfl⟩
    · rw [if_neg hlen]
      generalize strchr text '-' = sep
      cases sep with
      | none =>
        simp only [reduceCtorEq, if_false]
        cases kstrtouint text with
        | error e =>
          simp only
          split_ifs <;> exact ⟨_, _, _, rfl⟩
        | ok v =>
          simp only
          split_ifs <;> exact ⟨_, _, _, rfl⟩
      | some k =>
        simp only [Option.some.injEq]
        generalize kstrtouint (text.drop 1) = r1
        generalize kstrtouint (text.take k) = r2
        generalize kstrtouint (text.drop (k + 1)) = r3
        cases r1 <;> cases r2 <;> cases r3 <;> simp only <;> split_ifs <;>
          exact ⟨_, _, _, rfl⟩

theorem initialize_from_table (rest : List scmi_quirk) :
    ∀ (i : Nat) (ht : List (List Nat)),
      (scmi_quirks_initialize_from i rest ht).1 = rest.map initialize_quirk := by
  induction rest with
  | nil => intro i ht; rfl
  | cons q rest ih =>
    intro i ht
    unfold scmi_quirks_initialize_from
    simp only [List.map_cons]
    split_ifs with hret
    · simp [ih, initialize_quirk, hret]
    · simp [ih, initialize_quirk, hret]

theorem initialize_from_ht (rest : List scmi_quirk) :
    ∀ (i : Nat) (ht : List (List Nat)), ht.length = 16 →
      (scmi_quirks_initialize_from i rest ht).2.length = 16 ∧
      ∀ b, (scmi_quirks_initialize_from i rest ht).2.getD b [] =
        ht.getD b [] ++ indexed_from i b rest := by
  induction rest with
  | nil => intro i ht hlen; exact ⟨hlen, fun b => by simp [scmi_quirks_initialize_from, indexed_from]⟩
  | cons q rest ih =>
    intro i ht hlen
    unfold scmi_quirks_initialize_from
    simp only
    split_ifs with hret
    · obtain ⟨h1, h2⟩ := ih (i + 1) ht hlen
      refine ⟨h1, fun b => ?_⟩
      have : ¬ ((scmi_quirk_range_parse q).1 = 0 ∧
          hash_min (initialize_quirk q).hkey SCMI_QUIRKS_HT_SZ = b) := fun h => hret h.1
      simp only [h2 b, indexed_from, if_neg this]
    · obtain ⟨h1, h2⟩ := ih (i + 1) (hash_add ht i (scmi_quirk_signature
        (scmi_quirk_range_parse q).2.compatible (scmi_quirk_range_parse q).2.vendor
        (scmi_quirk_range_parse q).2.sub_vendor_id)) (by rw [hash_add_length]; exact hlen)
      refine ⟨h1, fun b => ?_⟩
      have hk : (initialize_quirk q).hkey = scmi_quirk_signature
          (scmi_quirk_range_parse q).2.compatible (scmi_quirk_range_parse q).2.vendor
          (scmi_quirk_range_parse q).2.sub_vendor_id := by
        simp [initialize_quirk, hret]
      simp only [h2 b, indexed_from, hash_add_getD _ _ _ _ hlen, hk]
      simp only [ne_eq, not_not] at hret
      by_cases hb : hash_min (scmi_quirk_signature
        (scmi_quirk_range_parse q).2.compatible (scmi_quirk_range_parse q).2.vendor
        (scmi_quirk_range_parse q).2.sub_vendor_id) SCMI_QUIRKS_HT_SZ = b
      · simp [hb, hret]
      · simp [hb]



theorem range_parse_ok_le (q : scmi_quirk) (h : (scmi_quirk_range_parse q).1 = 0) :
    (scmi_quirk_range_parse q).2.start_range ≤ (scmi_quirk_range_parse q).2.end_range := by
  revert h
  unfold scmi_quirk_range_parse
  cases q.impl_ver_range with
  | none => intro _; simp
  | some text =>
    simp only
    by_cases hlen : text.length = 0
    · rw [if_pos hlen]; intro _; simp
    · rw [if_neg hlen]
      generalize strchr text '-' = sep
      cases sep with
      | none =>
        simp only [reduceCtorEq, if_false]
        cases kstrtouint text with
        | error e =>
          simp only
          split_ifs with h1 h2 <;> intro h <;> simp_all
        | ok v =>
          simp only
          split_ifs with h1 h2 <;> intro h <;> simp_all
      | some k =>
        simp only [Option.some.injEq]
        have b2 : ∀ v, kstrtouint (text.take k) = .ok v → v < 2 ^ 32 :=
          fun v h => (kstrtouint_ok h).2.2
        generalize kstrtouint (text.drop 1) = r1
        generalize kstrtouint (text.take k) = r2 at b2
        generalize kstrtouint (text.drop (k + 1)) = r3
        cases r1 <;> cases r2 <;> cases r3 <;> simp only <;> split_ifs <;>
          intro h <;> simp_all [EINVAL]

theorem mem_indexed_from (b : Nat) (rest : List scmi_quirk) :
    ∀ (i j : Nat), j ∈ indexed_from i b rest ↔
      i ≤ j ∧ ∃ q, rest[j - i]? = some q ∧ (scmi_quirk_range_parse q).1 = 0 ∧
        hash_min (initialize_quirk q).hkey SCMI_QUIRKS_HT_SZ = b := by
  induction rest with
  | nil => intro i j; simp [indexed_from]
  | cons q rest ih =>
    intro i j
    unfold indexed_from
    have hstep : ∀ (hij : i < j), (q :: rest)[j - i]? = rest[j - (i + 1)]? := by
      intro hij
      have : j - i = (j - (i + 1)) + 1 := by omega
      rw [this, List.getElem?_cons_succ]
    split_ifs with hc
    · rw [List.mem_cons, ih]
      constructor
      · rintro (rfl | ⟨h1, p, hp, h2⟩)
        · exact ⟨le_refl _, q, by simp, hc⟩
        · exact ⟨by omega, p, by rw [hstep (by omega)]; exact hp, h2⟩
      · rintro ⟨h1, p, hp, h2⟩
        by_cases hij : j = i
        · exact Or.inl hij
        · right
          refine ⟨by omega, p, ?_, h2⟩
          rw [← hstep (by omega)]; exact hp
    · rw [ih]
      constructor
      · rintro ⟨h1, p, hp, h2⟩
        exact ⟨by omega, p, by rw [hstep (by omega)]; exact hp, h2⟩
      · rintro ⟨h1, p, hp, h2⟩
        by_cases hij : j = i
        · subst hij
          simp only [Nat.sub_self, List.getElem?_cons_zero, Option.some.injEq] at hp
          subst hp
          exact absurd h2 hc
        · refine ⟨by omega, p, ?_, h2⟩
          rw [← hstep (by omega)]; exact hp

theorem initialize_table (table : List scmi_quirk) :
    ( scmi_quirks_initialize table).scmi_quirks_table = table.map initialize_quirk := by
  unfold scmi_quirks_initialize
  exact initialize_from_table table 0 hash_empty

theorem initialize_ht (table : List scmi_quirk) :
    ( scmi_quirks_initialize table).scmi_quirks_ht.length = 16 ∧
    ∀ b, ( scmi_quirks_initialize table).scmi_quirks_ht.getD b [] =
      indexed_from 0 b table := by
  have h := initialize_from_ht table 0 hash_empty (by simp [hash_empty, SCMI_QUIRKS_HT_SZ])
  refine ⟨h.1, fun b => ?_⟩
  have h2 := h.2 b
  have he : hash_empty.getD b [] = [] := by
    simp only [hash_empty, List.getD_eq_getElem?_getD]
    cases hb : (List.replicate (2 ^ SCMI_QUIRKS_HT_SZ) ([] : List Nat))[b]? with
    | none => rfl
    | some x =>
      have := List.getElem?_mem hb
      simp only [List.mem_replicate] at this
      simp [this.2]
  rw [he, List.nil_append] at h2
  exact h2

theorem initialize_possible (table : List scmi_quirk) (i hkey : Nat) :
    i ∈ hash_possible ( scmi_quirks_initialize table).scmi_quirks_ht hkey ↔
      ∃ q, table[i]? = some q ∧ (scmi_quirk_range_parse q).1 = 0 ∧
        hash_min (initialize_quirk q).hkey SCMI_QUIRKS_HT_SZ =
          hash_min hkey SCMI_QUIRKS_HT_SZ := by
  unfold hash_possible
  rw [(initialize_ht table).2, mem_indexed_from]
  simp

theorem initialize_indexed (table : List scmi_quirk) (i : Nat) :
    indexed ( scmi_quirks_initialize table) i ↔
      ∃ q, table[i]? = some q ∧ (scmi_quirk_range_parse q).1 = 0 := by
  obtain ⟨hlen, hget⟩ := initialize_ht table
  unfold indexed
  constructor
  · rintro ⟨bucket, hb, hi⟩
    obtain ⟨n, hn, rfl⟩ := List.getElem_of_mem hb
    have := hget n
    rw [List.getD_eq_getElem?_getD, List.getElem?_eq_getElem hn, Option.getD_some] at this
    rw [this, mem_indexed_from] at hi
    obtain ⟨_, q, hq, hok, _⟩ := hi
    exact ⟨q, by simpa using hq, hok⟩
  · rintro ⟨q, hq, hok⟩
    have hlt : hash_min (initialize_quirk q).hkey SCMI_QUIRKS_HT_SZ <
        ( scmi_quirks_initialize table).scmi_quirks_ht.length := by
      rw [hlen]; exact hash_min_lt _
    refine ⟨_, List.getElem_mem hlt, ?_⟩
    have := hget (hash_min (initialize_quirk q).hkey SCMI_QUIRKS_HT_SZ)
    rw [List.getD_eq_getElem?_getD, List.getElem?_eq_getElem hlt, Option.getD_some] at this
    rw [this, mem_indexed_from]
    exact ⟨Nat.zero_le _, q, by simpa using hq, hok, rfl⟩


theorem strchr_of_mem {s : List Char} {c : Char} (h : c ∈ s) : ∃ k, strchr s c = some k := by
  cases hs : strchr s c with
  | some k => exact ⟨k, rfl⟩
  | none =>
    exfalso
    induction s with
    | nil => cases h
    | cons x t ih =>
      by_cases hx : x = c
      · simp [strchr, hx] at hs
      · simp only [strchr, hx, if_false, Option.map_eq_none'] at hs
        rcases List.mem_cons.1 h with h' | h'
        · exact hx h'.symm
        · exact ih h' hs

theorem accepted_none_of_dash {s : List Char} (h : '-' ∈ s) : accepted s = none := by
  unfold accepted
  cases hk : kstrtouint s with
  | error e => rfl
  | ok v => exact absurd h (kstrtouint_ok hk).2.1

theorem rejected_second_dash {text before after : List Char}
    (h : text = before ++ '-' :: after) (h2 : '-' ∈ after) :
    range_text_rejected text = true := by
  have hmem : '-' ∈ text := by rw [h]; simp
  obtain ⟨k, hk⟩ := strchr_of_mem hmem
  obtain ⟨_, hk2, hk3⟩ := strchr_some hk
  have hc : (text.drop (k + 1)).count '-' ≥ 1 := by
    have e1 : text.count '-' = (text.take k).count '-' + (1 + (text.drop (k + 1)).count '-') := by
      conv_lhs => rw [hk3]
      rw [List.count_append, List.count_cons_self]; omega
    have e2 : text.count '-' = before.count '-' + (1 + after.count '-') := by
      rw [h, List.count_append, List.count_cons_self]; omega
    have e3 : (text.take k).count '-' = 0 := List.count_eq_zero.2 hk2
    have e4 : after.count '-' ≥ 1 := List.count_pos_iff.2 h2
    omega
  have hd : '-' ∈ text.drop (k + 1) := List.count_pos_iff.1 hc
  have hne : text.drop (k + 1) ≠ [] := List.ne_nil_of_mem hd
  unfold range_text_rejected
  rw [strchr_some_split hk]
  simp only [accepted_none_of_dash hd, hne, if_false]
  split_ifs <;> simp

theorem enable_spec (st : quirks_state) (compat vend subv : Option (List Char)) (impl : Nat) :
    (scmi_quirks_enable st compat vend subv impl).1.scmi_quirks_ht = st.scmi_quirks_ht ∧
    (∀ i, (scmi_quirks_enable st compat vend subv impl).1.scmi_quirks_table[i]? =
      (st.scmi_quirks_table[i]?).map (fun q =>
        if q.enabled = false ∧
          probes_match st.scmi_quirks_ht impl (probe_signatures compat vend subv) i q
        then quirk_set_enabled q else q)) ∧
    (scmi_quirks_enable st compat vend subv impl).2.Nodup ∧
    ∀ i, i ∈ (scmi_quirks_enable st compat vend subv impl).2 ↔
      ∃ q, st.scmi_quirks_table[i]? = some q ∧ q.enabled = false ∧
        probes_match st.scmi_quirks_ht impl (probe_signatures compat vend subv) i q := by
  rw [scmi_quirks_enable_eq]
  obtain ⟨h1, new, h2, h3, h4⟩ := enable_probes_spec st.scmi_quirks_ht impl
    (probe_signatures compat vend subv) st.scmi_quirks_table []
  rw [List.nil_append] at h2
  refine ⟨rfl, h1, ?_, ?_⟩
  · simp only [h2]; exact h3
  · simp only [h2]; exact h4

theorem probes_match_built (table : List scmi_quirk) (impl : Nat) (probes : List Nat)
    (i : Nat) (d : scmi_quirk)
    (hd : ( scmi_quirks_initialize table).scmi_quirks_table[i]? = some d) :
    probes_match ( scmi_quirks_initialize table).scmi_quirks_ht impl probes i d ↔
      (indexed ( scmi_quirks_initialize table) i ∧ d.hkey ∈ probes ∧
        d.start_range ≤ impl ∧ impl ≤ d.end_range) := by
  unfold probes_match quirk_matches
  constructor
  · rintro ⟨h, hP, hi, hk, r1, r2⟩
    obtain ⟨q, hq, hok, _⟩ := (initialize_possible table i h).1 hi
    exact ⟨(initialize_indexed table i).2 ⟨q, hq, hok⟩, hk ▸ hP, r1, r2⟩
  · rintro ⟨hidx, hP, r1, r2⟩
    obtain ⟨q, hq, hok⟩ := (initialize_indexed table i).1 hidx
    refine ⟨d.hkey, hP, ?_, rfl, r1, r2⟩
    rw [initialize_possible]
    refine ⟨q, hq, hok, ?_⟩
    rw [initialize_table, List.getElem?_map, hq] at hd
    simp only [Option.map_some', Option.some.injEq] at hd
    rw [hd]

theorem quirks_state_ext {a b : quirks_state}
    (h1 : a.scmi_quirks_table = b.scmi_quirks_table)
    (h2 : a.scmi_quirks_ht = b.scmi_quirks_ht) : a = b := by
  cases a; cases b; simp_all

theorem probes_match_indexed {st : quirks_state} {impl : Nat} {probes : List Nat} {i : Nat}
    {q : scmi_quirk} (h : probes_match st.scmi_quirks_ht impl probes i q) : indexed st i := by
  obtain ⟨k, _, hi, _⟩ := h
  unfold hash_possible at hi
  rw [List.getD_eq_getElem?_getD] at hi
  cases hb : st.scmi_quirks_ht[hash_min k SCMI_QUIRKS_HT_SZ]? with
  | none => rw [hb] at hi; cases hi
  | some bucket =>
    rw [hb] at hi
    exact ⟨bucket, List.getElem?_mem hb, hi⟩

theorem enable_enabled_mono (st : quirks_state) (compat vend subv : Option (List Char))
    (impl i : Nat) (h : enabled_at st i) :
    enabled_at (scmi_quirks_enable st compat vend subv impl).1 i := by
  obtain ⟨q, hq, he⟩ := h
  obtain ⟨_, h2, _, _⟩ := enable_spec st compat vend subv impl
  refine ⟨q, ?_, he⟩
  rw [h2 i, hq]
  have : ¬ (q.enabled = false ∧
      probes_match st.scmi_quirks_ht impl (probe_signatures compat vend subv) i q) := by
    rintro ⟨hh, _⟩; rw [he] at hh; cases hh
  simp only [Option.map_some', if_neg this]

theorem enable_log_iff (st : quirks_state) (compat vend subv : Option (List Char))
    (impl i : Nat) :
    i ∈ (scmi_quirks_enable st compat vend subv impl).2 ↔
      (¬ enabled_at st i ∧ enabled_at (scmi_quirks_enable st compat vend subv impl).1 i) := by
  obtain ⟨_, h2, _, h4⟩ := enable_spec st compat vend subv impl
  rw [h4 i]
  unfold enabled_at
  constructor
  · rintro ⟨q, hq, he, hm⟩
    refine ⟨?_, quirk_set_enabled q, ?_, rfl⟩
    · rintro ⟨q', hq', he'⟩
      rw [hq] at hq'; cases hq'
      rw [he] at he'; cases he'
    · have hA : q.enabled = false ∧
          probes_match st.scmi_quirks_ht impl (probe_signatures compat vend subv) i q :=
        ⟨he, hm⟩
      rw [h2 i, hq, Option.map_some', if_pos hA]
  · rintro ⟨hoff, q', hq', he'⟩
    rw [h2 i] at hq'
    cases hq : st.scmi_quirks_table[i]? with
    | none => rw [hq] at hq'; cases hq'
    | some q =>
      rw [hq, Option.map_some', Option.some.injEq] at hq'
      have hqoff : q.enabled = false := by
        cases hb : q.enabled with
        | false => rfl
        | true => exact absurd ⟨q, hq, hb⟩ hoff
      by_cases hA : q.enabled = false ∧
          probes_match st.scmi_quirks_ht impl (probe_signatures compat vend subv) i q
      · exact ⟨q, rfl, hA⟩
      · rw [if_neg hA] at hq'
        subst hq'
        rw [hqoff] at he'; cases he'

theorem enable_not_indexed (st : quirks_state) (compat vend subv : Option (List Char))
    (impl i : Nat) (h : ¬ indexed st i) :
    (scmi_quirks_enable st compat vend subv impl).1.scmi_quirks_table[i]? =
      st.scmi_quirks_table[i]? := by
  obtain ⟨_, h2, _, _⟩ := enable_spec st compat vend subv impl
  rw [h2 i]
  cases hq : st.scmi_quirks_table[i]? with
  | none => rfl
  | some q =>
    have : ¬ (q.enabled = false ∧
        probes_match st.scmi_quirks_ht impl (probe_signatures compat vend subv) i q) :=
      fun hh => h (probes_match_indexed hh.2)
    simp only [Option.map_some', if_neg this]

theorem enable_seq_ht (ids : List scmi_identity) :
    ∀ st, (scmi_quirks_enable_seq st ids).1.scmi_quirks_ht = st.scmi_quirks_ht := by
  induction ids with
  | nil => intro st; rfl
  | cons id ids ih =>
    intro st
    unfold scmi_quirks_enable_seq
    simp only
    rw [ih]
    exact (enable_spec st _ _ _ _).1

theorem enable_seq_append (ids1 ids2 : List scmi_identity) :
    ∀ st, scmi_quirks_enable_seq st (ids1 ++ ids2) =
      ((scmi_quirks_enable_seq (scmi_quirks_enable_seq st ids1).1 ids2).1,
        (scmi_quirks_enable_seq st ids1).2 ++
          (scmi_quirks_enable_seq (scmi_quirks_enable_seq st ids1).1 ids2).2) := by
  induction ids1 with
  | nil => intro st; simp [scmi_quirks_enable_seq]
  | cons id ids ih =>
    intro st
    have e : ∀ l, scmi_quirks_enable_seq st (id :: l) =
        ((scmi_quirks_enable_seq
            (scmi_quirks_enable st id.compat id.vend id.subv id.impl).1 l).1,
          (scmi_quirks_enable st id.compat id.vend id.subv id.impl).2 ++
            (scmi_quirks_enable_seq
              (scmi_quirks_enable st id.compat id.vend id.subv id.impl).1 l).2) :=
      fun _ => rfl
    rw [List.cons_append, e, e, ih, List.append_assoc]

theorem enable_seq_mono (ids : List scmi_identity) :
    ∀ st i, enabled_at st i → enabled_at (scmi_quirks_enable_seq st ids).1 i := by
  induction ids with
  | nil => intro st i h; exact h
  | cons id ids ih =>
    intro st i h
    unfold scmi_quirks_enable_seq
    exact ih _ i (enable_enabled_mono st _ _ _ _ i h)

theorem enable_seq_not_indexed (ids : List scmi_identity) :
    ∀ st i, ¬ indexed st i →
      (scmi_quirks_enable_seq st ids).1.scmi_quirks_table[i]? = st.scmi_quirks_table[i]? := by
  induction ids with
  | nil => intro st i _; rfl
  | cons id ids ih =>
    intro st i h
    unfold scmi_quirks_enable_seq
    simp only
    have hht := (enable_spec st id.compat id.vend id.subv id.impl).1
    have h' : ¬ indexed (scmi_quirks_enable st id.compat id.vend id.subv id.impl).1 i := by
      unfold indexed at h ⊢
      rw [hht]; exact h
    rw [ih _ i h']
    exact enable_not_indexed st _ _ _ _ i h

theorem enable_seq_log (ids : List scmi_identity) :
    ∀ st, (scmi_quirks_enable_seq st ids).2.Nodup ∧
      ∀ i ∈ (scmi_quirks_enable_seq st ids).2, ¬ enabled_at st i := by
  induction ids with
  | nil => intro st; exact ⟨List.nodup_nil, fun i hi => by cases hi⟩
  | cons id ids ih =>
    intro st
    unfold scmi_quirks_enable_seq
    simp only
    obtain ⟨hnd2, hoff2⟩ := ih (scmi_quirks_enable st id.compat id.vend id.subv id.impl).1
    have hnd1 := (enable_spec st id.compat id.vend id.subv id.impl).2.2.1
    refine ⟨List.Nodup.append hnd1 hnd2 ?_, ?_⟩
    · intro i h1 h2
      exact hoff2 i h2 ((enable_log_iff st _ _ _ _ i).1 h1).2
    · intro i hi
      rcases List.mem_append.1 hi with h1 | h2
      · exact ((enable_log_iff st _ _ _ _ i).1 h1).1
      · exact fun hen => hoff2 i h2 (enable_enabled_mono st _ _ _ _ i hen)

theorem initialize_quirk_ok {p : scmi_quirk} (h : (scmi_quirk_range_parse p).1 = 0) :
    initialize_quirk p = { (scmi_quirk_range_parse p).2 with
      hkey := scmi_quirk_signature p.compatible p.vendor p.sub_vendor_id } := by
  obtain ⟨s, e, t, hf⟩ := range_parse_fields p
  simp only [initialize_quirk, h, ne_eq, not_true_eq_false, if_false, hf]

theorem initialize_quirk_bad {p : scmi_quirk} (h : (scmi_quirk_range_parse p).1 ≠ 0) :
    initialize_quirk p = (scmi_quirk_range_parse p).2 := by
  simp only [initialize_quirk, h, ne_eq, not_false_eq_true, if_true]

theorem initialize_quirk_flags (p : scmi_quirk) :
    (initialize_quirk p).enabled = p.enabled ∧ (initialize_quirk p).key = p.key := by
  obtain ⟨s, e, t, hf⟩ := range_parse_fields p
  by_cases h : (scmi_quirk_range_parse p).1 = 0
  · rw [initialize_quirk_ok h, hf]; exact ⟨rfl, rfl⟩
  · rw [initialize_quirk_bad h, hf]; exact ⟨rfl, rfl⟩

theorem initialize_get (table : List scmi_quirk) (i : Nat) :
    ( scmi_quirks_initialize table).scmi_quirks_table[i]? =
      (table[i]?).map initialize_quirk := by
  rw [initialize_table, List.getElem?_map]

theorem enable_log_indexed (st : quirks_state) (compat vend subv : Option (List Char))
    (impl i : Nat) (h : i ∈ (scmi_quirks_enable st compat vend subv impl).2) :
    indexed st i := by
  obtain ⟨_, _, _, h4⟩ := enable_spec st compat vend subv impl
  obtain ⟨q, _, _, hm⟩ := (h4 i).1 h
  exact probes_match_indexed hm

theorem enable_seq_log_indexed (ids : List scmi_identity) :
    ∀ st i, i ∈ (scmi_quirks_enable_seq st ids).2 → indexed st i := by
  induction ids with
  | nil => intro st i h; cases h
  | cons id ids ih =>
    intro st i h
    unfold scmi_quirks_enable_seq at h
    rcases List.mem_append.1 h with h1 | h2
    · exact enable_log_indexed st _ _ _ _ i h1
    · have := ih _ i h2
      unfold indexed at this ⊢
      rw [(enable_spec st id.compat id.vend id.subv id.impl).1] at this
      exact this

theorem enable_idem (st : quirks_state) (compat vend subv : Option (List Char))
    (impl : Nat) :
    (scmi_quirks_enable (scmi_quirks_enable st compat vend subv impl).1
        compat vend subv impl).2 = [] ∧
    (scmi_quirks_enable (scmi_quirks_enable st compat vend subv impl).1
        compat vend subv impl).1 = (scmi_quirks_enable st compat vend subv impl).1 := by
  obtain ⟨a1, a2, _, _⟩ := enable_spec st compat vend subv impl
  obtain ⟨b1, b2, _, b4⟩ :=
    enable_spec (scmi_quirks_enable st compat vend subv impl).1 compat vend subv impl
  have key : ∀ i q1, (scmi_quirks_enable st compat vend subv impl).1.scmi_quirks_table[i]? =
      some q1 → ¬ (q1.enabled = false ∧
        probes_match (scmi_quirks_enable st compat vend subv impl).1.scmi_quirks_ht impl
          (probe_signatures compat vend subv) i q1) := by
    intro i q1 hq1 hc
    rw [a1] at hc
    rw [a2 i] at hq1
    cases hq : st.scmi_quirks_table[i]? with
    | none => rw [hq] at hq1; cases hq1
    | some q =>
      rw [hq, Option.map_some', Option.some.injEq] at hq1
      by_cases hA : q.enabled = false ∧
          probes_match st.scmi_quirks_ht impl (probe_signatures compat vend subv) i q
      · rw [if_pos hA] at hq1
        subst hq1
        cases hc.1
      · rw [if_neg hA] at hq1
        subst hq1
        exact hA hc
  refine ⟨?_, quirks_state_ext ?_ b1⟩
  · rw [List.eq_nil_iff_forall_not_mem]
    intro i hi
    obtain ⟨q1, hq1, he, hm⟩ := (b4 i).1 hi
    exact key i q1 hq1 ⟨he, hm⟩
  · apply List.ext_getElem?
    intro i
    rw [b2 i]
    cases hq1 : (scmi_quirks_enable st compat vend subv impl).1.scmi_quirks_table[i]? with
    | none => rfl
    | some q1 =>
      rw [Option.map_some', if_neg (key i q1 hq1)]

theorem tolower_eq_bar {ch : Char} (h : tolower ch = '|') : ch = '|' := by
  unfold tolower at h
  split_ifs at h with hu
  · exfalso
    have hc : Char.ofNat ch.toNat = ch := Char.ofNat_toNat ch
    unfold isupper at hu
    generalize ch.toNat = n at h hu hc
    subst hc
    simp only [Bool.or_eq_true, Bool.and_eq_true, decide_eq_true_eq, bne_iff_ne, ne_eq] at hu
    revert h
    rcases hu with ⟨h1, h2⟩ | ⟨⟨h1, h2⟩, _⟩
    · interval_cases n <;> decide
    · interval_cases n <;> decide
  · exact h

theorem tolower_idem (ch : Char) : tolower (tolower ch) = tolower ch := by
  by_cases hu : isupper ch
  · have hc : Char.ofNat ch.toNat = ch := Char.ofNat_toNat ch
    have hu' := hu
    unfold isupper at hu'
    generalize ch.toNat = n at hu' hc
    subst hc
    simp only [Bool.or_eq_true, Bool.and_eq_true, decide_eq_true_eq, bne_iff_ne, ne_eq] at hu'
    have hn : n ≤ 222 := by omega
    have hn2 : 65 ≤ n := by omega
    clear hu hu'
    interval_cases n <;> rfl
  · have : tolower ch = ch := by simp [tolower, hu]
    rw [this, this]

theorem tolower_toUpper (ch : Char) : tolower ch.toUpper = tolower ch := by
  unfold Char.toUpper
  simp only
  split_ifs with h
  · have hc : Char.ofNat ch.toNat = ch := Char.ofNat_toNat ch
    generalize ch.toNat = n at h hc
    subst hc
    obtain ⟨h1, h2⟩ := h
    interval_cases n <;> rfl
  · rfl

theorem lowered_signature_eq (c v s : Option (List Char)) :
    lowered_signature c v s =
      '|' :: ((c.getD []).map tolower ++ '|' :: ((v.getD []).map tolower ++
        '|' :: ((s.getD []).map tolower ++ ['|']))) := by
  have hb : tolower '|' = '|' := by decide
  simp [lowered_signature, signature_string, hb]

theorem signature_eq_hash (c v s : Option (List Char)) :
    scmi_quirk_signature c v s =
      end_name_hash ((lowered_signature c v s).foldl
        (fun hash ch => partial_name_hash ch.toNat hash) 0) := by
  simp only [scmi_quirk_signature, lowered_signature, List.foldl_map]

theorem signature_congr {c v s c' v' s' : Option (List Char)}
    (hc : (c.getD []).map tolower = (c'.getD []).map tolower)
    (hv : (v.getD []).map tolower = (v'.getD []).map tolower)
    (hs : (s.getD []).map tolower = (s'.getD []).map tolower) :
    scmi_quirk_signature c v s = scmi_quirk_signature c' v' s' := by
  rw [signature_eq_hash, signature_eq_hash, lowered_signature_eq, lowered_signature_eq,
    hc, hv, hs]

theorem signature_map {c v s : Option (List Char)} (f : Char → Char)
    (hf : ∀ ch, tolower (f ch) = tolower ch) :
    scmi_quirk_signature (c.map (List.map f)) (v.map (List.map f)) (s.map (List.map f)) =
      scmi_quirk_signature c v s := by
  have key : ∀ o : Option (List Char),
      ((o.map (List.map f)).getD []).map tolower = (o.getD []).map tolower := by
    intro o
    cases o with
    | none => rfl
    | some l =>
      simp only [Option.map_some', Option.getD_some, List.map_map]
      apply List.map_congr_left
      intro ch _
      exact hf ch
  exact signature_congr (key c) (key v) (key s)

theorem bar_split {a a' r r' : List Char} (ha : '|' ∉ a) (ha' : '|' ∉ a')
    (h : a ++ '|' :: r = a' ++ '|' :: r') : a = a' ∧ r = r' := by
  induction a generalizing a' with
  | nil =>
    cases a' with
    | nil => simpa using h
    | cons y t' =>
      simp only [List.nil_append, List.cons_append, List.cons.injEq] at h
      exact absurd (h.1 ▸ List.mem_cons_self _ _ : '|' ∈ y :: t') ha'
  | cons x t ih =>
    cases a' with
    | nil =>
      simp only [List.nil_append, List.cons_append, List.cons.injEq] at h
      exact absurd (h.1 ▸ List.mem_cons_self _ _ : '|' ∈ x :: t) ha
    | cons y t' =>
      simp only [List.cons_append, List.cons.injEq] at h
      simp only [List.mem_cons, not_or] at ha ha'
      obtain ⟨e1, e2⟩ := ih ha.2 ha'.2 h.2
      exact ⟨by rw [h.1, e1], e2⟩

theorem not_bar_lowered {l : List Char} (h : '|' ∉ l) : '|' ∉ l.map tolower := by
  intro hm
  obtain ⟨ch, hch, he⟩ := List.mem_map.1 hm
  exact h (tolower_eq_bar he ▸ hch)

theorem lowered_signature_inj {c v s c' v' s' : Option (List Char)}
    (h1 : '|' ∉ c.getD []) (h2 : '|' ∉ v.getD []) (h3 : '|' ∉ s.getD [])
    (h1' : '|' ∉ c'.getD []) (h2' : '|' ∉ v'.getD []) (h3' : '|' ∉ s'.getD [])
    (h : lowered_signature c v s = lowered_signature c' v' s') :
    (c.getD []).map tolower = (c'.getD []).map tolower ∧
    (v.getD []).map tolower = (v'.getD []).map tolower ∧
    (s.getD []).map tolower = (s'.getD []).map tolower := by
  rw [lowered_signature_eq, lowered_signature_eq, List.cons.injEq] at h
  obtain ⟨e1, r1⟩ := bar_split (not_bar_lowered h1) (not_bar_lowered h1') h.2
  obtain ⟨e2, r2⟩ := bar_split (not_bar_lowered h2) (not_bar_lowered h2') r1
  obtain ⟨e3, _⟩ := bar_split (not_bar_lowered h3) (not_bar_lowered h3') r2
  exact ⟨e1, e2, e3⟩

theorem enable_at_built (table : List scmi_quirk) (i : Nat) (q : scmi_quirk)
    (compat vend subv : Option (List Char)) (impl : Nat)
    (hq : table[i]? = some q) (hok : (scmi_quirk_range_parse q).1 = 0)
    (hoff : q.enabled = false) :
    ((initialize_quirk q).hkey ∈ probe_signatures compat vend subv →
      (initialize_quirk q).start_range ≤ impl ∧ impl ≤ (initialize_quirk q).end_range →
      (scmi_quirks_enable ( scmi_quirks_initialize table)
          compat vend subv impl).1.scmi_quirks_table[i]? =
        some (quirk_set_enabled (initialize_quirk q)) ∧
      i ∈ (scmi_quirks_enable ( scmi_quirks_initialize table) compat vend subv impl).2) ∧
    (¬ ((initialize_quirk q).hkey ∈ probe_signatures compat vend subv ∧
        (initialize_quirk q).start_range ≤ impl ∧ impl ≤ (initialize_quirk q).end_range) →
      (scmi_quirks_enable ( scmi_quirks_initialize table)
          compat vend subv impl).1.scmi_quirks_table[i]? = some (initialize_quirk q) ∧
      i ∉ (scmi_quirks_enable ( scmi_quirks_initialize table) compat vend subv impl).2) := by
  obtain ⟨_, h2, _, h4⟩ := enable_spec ( scmi_quirks_initialize table) compat vend subv impl
  have hd : ( scmi_quirks_initialize table).scmi_quirks_table[i]? =
      some (initialize_quirk q) := by
    rw [initialize_get, hq]; rfl
  have hidx : indexed ( scmi_quirks_initialize table) i :=
    (initialize_indexed table i).2 ⟨q, hq, hok⟩
  have hen : (initialize_quirk q).enabled = false := by
    rw [(initialize_quirk_flags q).1]; exact hoff
  have hpm := probes_match_built table impl (probe_signatures compat vend subv) i _ hd
  constructor
  · intro hk hr
    have hA : (initialize_quirk q).enabled = false ∧
        probes_match ( scmi_quirks_initialize table).scmi_quirks_ht impl
          (probe_signatures compat vend subv) i (initialize_quirk q) :=
      ⟨hen, hpm.2 ⟨hidx, hk, hr⟩⟩
    refine ⟨?_, (h4 i).2 ⟨_, hd, hA⟩⟩
    rw [h2 i, hd, Option.map_some', if_pos hA]
  · intro hn
    have hA : ¬ ((initialize_quirk q).enabled = false ∧
        probes_match ( scmi_quirks_initialize table).scmi_quirks_ht impl
          (probe_signatures compat vend subv) i (initialize_quirk q)) :=
      fun hh => hn (hpm.1 hh.2).2
    refine ⟨?_, ?_⟩
    · rw [h2 i, hd, Option.map_some', if_neg hA]
    · intro hmem
      obtain ⟨d, hd', he, hm⟩ := (h4 i).1 hmem
      rw [hd] at hd'; cases hd'
      exact hA ⟨he, hm⟩

/-! ## The claims -/

/-- C1: on a built index, with any flags (the initializer keeps the flags of
the registry it is given, which are arbitrary here), one `scmi_quirks_enable`
call is the six bucket walks for the six probe signatures in the stated order;
it leaves the index alone; it sets the flag (and static key) of exactly the
descriptors that were not yet enabled, are indexed, store one of the six probe
signatures and have start_range ≤ version ≤ end_range, and changes nothing
else; it reports exactly those, each once. In the two-range scenario version
30 enables and reports only the first descriptor and version 75 only the
second. -/
theorem enable_flips_exactly (table : List scmi_quirk)
    (compat vend subv : Option (List Char)) (impl : Nat) :
    scmi_quirks_enable ( scmi_quirks_initialize table) compat vend subv impl =
      ({ scmi_quirks_initialize table with scmi_quirks_table :=
          (enable_probes ( scmi_quirks_initialize table).scmi_quirks_ht impl
            (probe_signatures compat vend subv)
            (( scmi_quirks_initialize table).scmi_quirks_table, [])).1 },
        (enable_probes ( scmi_quirks_initialize table).scmi_quirks_ht impl
            (probe_signatures compat vend subv)
            (( scmi_quirks_initialize table).scmi_quirks_table, [])).2) ∧
    (scmi_quirks_enable ( scmi_quirks_initialize table) compat vend subv impl).1.scmi_quirks_ht =
      ( scmi_quirks_initialize table).scmi_quirks_ht ∧
    (∀ i, (scmi_quirks_enable ( scmi_quirks_initialize table)
        compat vend subv impl).1.scmi_quirks_table[i]? =
      (( scmi_quirks_initialize table).scmi_quirks_table[i]?).map (fun d =>
        if newly_enabled ( scmi_quirks_initialize table) compat vend subv impl i d
        then quirk_set_enabled d else d)) ∧
    (∀ i, i ∈ (scmi_quirks_enable ( scmi_quirks_initialize table) compat vend subv impl).2 ↔
      ∃ d, ( scmi_quirks_initialize table).scmi_quirks_table[i]? = some d ∧
        newly_enabled ( scmi_quirks_initialize table) compat vend subv impl i d) ∧
    (scmi_quirks_enable ( scmi_quirks_initialize table) compat vend subv impl).2.Nodup ∧
    ( scmi_quirks_initialize table).scmi_quirks_table.map (fun d => (d.enabled, d.key)) =
      table.map (fun d => (d.enabled, d.key)) ∧
    ((scmi_quirks_enable ( scmi_quirks_initialize scenario3_table)
        (some "c".toList) (some "v".toList) (some "s".toList) 30).1.scmi_quirks_table.map
          (fun d => d.enabled) = [true, false]) ∧
    (scmi_quirks_enable ( scmi_quirks_initialize scenario3_table)
        (some "c".toList) (some "v".toList) (some "s".toList) 30).2 = [0] ∧
    ((scmi_quirks_enable ( scmi_quirks_initialize scenario3_table)
        (some "c".toList) (some "v".toList) (some "s".toList) 75).1.scmi_quirks_table.map
          (fun d => d.enabled) = [false, true]) ∧
    (scmi_quirks_enable ( scmi_quirks_initialize scenario3_table)
        (some "c".toList) (some "v".toList) (some "s".toList) 75).2 = [1] := by
  obtain ⟨h1, h2, h3, h4⟩ := enable_spec ( scmi_quirks_initialize table) compat vend subv impl
  have hcond : ∀ i d, ( scmi_quirks_initialize table).scmi_quirks_table[i]? = some d →
      ((d.enabled = false ∧ probes_match ( scmi_quirks_initialize table).scmi_quirks_ht impl
        (probe_signatures compat vend subv) i d) ↔
        newly_enabled ( scmi_quirks_initialize table) compat vend subv impl i d) := by
    intro i d hd
    unfold newly_enabled
    rw [probes_match_built table impl _ i d hd]
  refine ⟨scmi_quirks_enable_eq _ _ _ _ _, h1, fun i => ?_, fun i => ?_, h3, ?_, by decide,
    by decide, by decide, by decide⟩
  · rw [h2 i]
    cases hd : ( scmi_quirks_initialize table).scmi_quirks_table[i]? with
    | none => rfl
    | some d =>
      simp only [Option.map_some', Option.some.injEq]
      exact if_congr (hcond i d hd) rfl rfl
  · rw [h4 i]
    constructor
    · rintro ⟨d, hd, he, hm⟩
      exact ⟨d, hd, (hcond i d hd).1 ⟨he, hm⟩⟩
    · rintro ⟨d, hd, hn⟩
      exact ⟨d, hd, (hcond i d hd).2 hn⟩
  · rw [initialize_table, List.map_map]
    apply List.map_congr_left
    intro d _
    simp only [Function.comp_apply, (initialize_quirk_flags d).1, (initialize_quirk_flags d).2]

/-- C2: `scmi_quirk_range_parse` implements the documented range grammar. For
literals X and Y that the number parser accepts with values x and y: a NULL or
empty text gives [0, 0xFFFFFFFF], "X" gives [x, x], "X-" gives
[x, 0xFFFFFFFF], "-X" gives [0, x], and "X-Y" with x ≤ y gives [x, y]; the
return code is 0 in each case. -/
theorem range_parse_grammar (q : scmi_quirk) (X Y : List Char) (x y : Nat)
    (hX : kstrtouint X = .ok x) (hY : kstrtouint Y = .ok y) :
    parsed_range q none = (0, 0, 0xFFFFFFFF) ∧
    parsed_range q (some []) = (0, 0, 0xFFFFFFFF) ∧
    parsed_range q (some X) = (0, x, x) ∧
    parsed_range q (some (X ++ ['-'])) = (0, x, 0xFFFFFFFF) ∧
    parsed_range q (some ('-' :: X)) = (0, 0, x) ∧
    (x ≤ y → parsed_range q (some (X ++ '-' :: Y)) = (0, x, y)) :=
  ⟨rfl, rfl, parsed_range_single q hX, parsed_range_from q hX, parsed_range_upto q hX,
    fun hxy => parsed_range_both q hX hY hxy⟩

/-- The witnesses of C2: "5", "5-", "-5", "5-10" and the registry's
"0x20000-". -/
theorem range_parse_grammar_witness :
    parsed_range (DEFINE_SCMI_QUIRK [] none none none none) (some "5".toList) = (0, 5, 5) ∧
    parsed_range (DEFINE_SCMI_QUIRK [] none none none none) (some "5-".toList) =
      (0, 5, 0xFFFFFFFF) ∧
    parsed_range (DEFINE_SCMI_QUIRK [] none none none none) (some "-5".toList) = (0, 0, 5) ∧
    parsed_range (DEFINE_SCMI_QUIRK [] none none none none) (some "5-10".toList) =
      (0, 5, 10) ∧
    parsed_range (DEFINE_SCMI_QUIRK [] none none none none) (some "0x20000-".toList) =
      (0, 0x20000, 0xFFFFFFFF) :=
  have h := range_parse_grammar (DEFINE_SCMI_QUIRK [] none none none none)
    "5".toList "10".toList 5 10 rfl rfl
  have h2 := range_parse_grammar (DEFINE_SCMI_QUIRK [] none none none none)
    "0x20000".toList "0".toList 0x20000 0 rfl rfl
  ⟨h.2.2.1, h.2.2.2.1, h.2.2.2.2.1, h.2.2.2.2.2 (by decide), h2.2.2.2.1⟩

/-- C3: for a non-empty range text, `scmi_quirk_range_parse` returns an error
exactly when a required numeric part is rejected by the number parser or both
bounds parse with start > end; every successful parse (of any text, NULL
included) leaves start_range ≤ end_range; "-" alone fails; a text with a
second '-' fails. -/
theorem range_parse_error_iff (q : scmi_quirk) (text : List Char) (h : text ≠ []) :
    ((parsed_range q (some text)).1 ≠ 0 ↔ range_text_rejected text = true) ∧
    (∀ t, (parsed_range q t).1 = 0 → (parsed_range q t).2.1 ≤ (parsed_range q t).2.2) ∧
    (text = ['-'] → (parsed_range q (some text)).1 ≠ 0) ∧
    (∀ before after, text = before ++ '-' :: after → '-' ∈ after →
      (parsed_range q (some text)).1 ≠ 0) := by
  have hiff := range_parse_ret_iff q text h
  refine ⟨hiff, fun t ht => range_parse_ok_le _ ht, ?_, ?_⟩
  · rintro rfl
    exact hiff.2 (by decide)
  · intro before after hb ha
    exact hiff.2 (rejected_second_dash hb ha)

/-- The witnesses of C3: "10-5" and "abc" fail, with -EINVAL. -/
theorem range_parse_error_iff_witness :
    (parsed_range (DEFINE_SCMI_QUIRK [] none none none none) (some "10-5".toList)).1 ≠ 0 ∧
    (parsed_range (DEFINE_SCMI_QUIRK [] none none none none) (some "abc".toList)).1 ≠ 0 ∧
    parsed_range (DEFINE_SCMI_QUIRK [] none none none none) (some "10-5".toList) =
      (-EINVAL, 10, 5) ∧
    parsed_range (DEFINE_SCMI_QUIRK [] none none none none) (some "abc".toList) =
      (-EINVAL, 0, 0xFFFFFFFF) :=
  ⟨(range_parse_error_iff (DEFINE_SCMI_QUIRK [] none none none none) "10-5".toList
      (by decide)).1.2 (by decide),
    (range_parse_error_iff (DEFINE_SCMI_QUIRK [] none none none none) "abc".toList
      (by decide)).1.2 (by decide),
    by decide, by decide⟩

/-- C4: a descriptor whose range text fails to parse is not inserted into the
index, and after any sequence of `scmi_quirks_enable` calls it is still the
descriptor the initializer left, flag false, never reported; every descriptor
of the registry whose range parses is in the bucket of its signature and
stores that signature. -/
theorem bad_range_excluded (table : List scmi_quirk) (i : Nat) (q : scmi_quirk)
    (hq : table[i]? = some q) (hbad : (scmi_quirk_range_parse q).1 ≠ 0)
    (hoff : q.enabled = false) :
    ¬ indexed ( scmi_quirks_initialize table) i ∧
    (∀ ids,
      (scmi_quirks_enable_seq ( scmi_quirks_initialize table) ids).1.scmi_quirks_table[i]? =
        some (initialize_quirk q) ∧
      (initialize_quirk q).enabled = false ∧
      i ∉ (scmi_quirks_enable_seq ( scmi_quirks_initialize table) ids).2) ∧
    (∀ j p, table[j]? = some p → (scmi_quirk_range_parse p).1 = 0 →
      indexed ( scmi_quirks_initialize table) j ∧
      j ∈ hash_possible ( scmi_quirks_initialize table).scmi_quirks_ht
        (scmi_quirk_signature p.compatible p.vendor p.sub_vendor_id) ∧
      ∃ d, ( scmi_quirks_initialize table).scmi_quirks_table[j]? = some d ∧
        d.hkey = scmi_quirk_signature p.compatible p.vendor p.sub_vendor_id) := by
  have hni : ¬ indexed ( scmi_quirks_initialize table) i := by
    rw [initialize_indexed]
    rintro ⟨q', hq', hok⟩
    rw [hq] at hq'; cases hq'
    exact hbad hok
  refine ⟨hni, fun ids => ⟨?_, ?_, ?_⟩, fun j p hp hok => ⟨?_, ?_, ?_⟩⟩
  · rw [enable_seq_not_indexed ids _ i hni, initialize_get, hq]; rfl
  · rw [(initialize_quirk_flags q).1]; exact hoff
  · exact fun hmem => hni (enable_seq_log_indexed ids _ i hmem)
  · exact (initialize_indexed table j).2 ⟨p, hp, hok⟩
  · rw [initialize_possible]
    refine ⟨p, hp, hok, ?_⟩
    rw [initialize_quirk_ok hok]
  · refine ⟨initialize_quirk p, ?_, ?_⟩
    · rw [initialize_get, hp]; rfl
    · rw [initialize_quirk_ok hok]

/-- The witness of C4: in front of the built-in registry, a descriptor with
the range "10-5" is left out and stays disabled, while both built-in quirks
are indexed and enabled by a matching identity. -/
theorem bad_range_excluded_witness :
    ¬ indexed ( scmi_quirks_initialize bad_range_table) 0 ∧
    indexed ( scmi_quirks_initialize bad_range_table) 1 ∧
    indexed ( scmi_quirks_initialize bad_range_table) 2 ∧
    (scmi_quirks_enable_seq ( scmi_quirks_initialize bad_range_table)
      [xyz_42, acme_150]).1.scmi_quirks_table[0]? =
        some (initialize_quirk
          (DEFINE_SCMI_QUIRK "bad_range".toList none none none (some "10-5".toList))) ∧
    (scmi_quirks_enable_seq ( scmi_quirks_initialize bad_range_table)
      [xyz_42, acme_150]).1.scmi_quirks_table.map (fun d => d.enabled) =
        [false, true, false] :=
  have h := bad_range_excluded bad_range_table 0
    (DEFINE_SCMI_QUIRK "bad_range".toList none none none (some "10-5".toList))
    rfl (by decide) rfl
  ⟨h.1, (h.2.2 1 _ rfl (by decide)).1, (h.2.2 2 _ rfl (by decide)).1,
    (h.2.1 [xyz_42, acme_150]).1, by decide⟩

/-- C5, evaluated where it fails: the quirk of `sub_vendor_table` has NULL
compatible and vendor and the fixed sub-vendor "sub"; it is indexed, not
enabled, and its range [0, 0xFFFFFFFF] contains the version; the identity
("x","y","sub",0) agrees with it on the only fixed field. None of the six
probe signatures is the one stored, and the call enables and reports nothing.
With the empty vendor the fourth probe is the stored signature and the quirk
is enabled. -/
theorem sub_vendor_only_not_enabled :
    ( scmi_quirks_initialize sub_vendor_table).scmi_quirks_table.map
      (fun d => (d.compatible, d.vendor, d.sub_vendor_id, d.enabled,
        d.start_range, d.end_range)) =
      [(none, none, some "sub".toList, false, 0, 0xFFFFFFFF)] ∧
    indexed ( scmi_quirks_initialize sub_vendor_table) 0 ∧
    (scmi_quirks_enable ( scmi_quirks_initialize sub_vendor_table)
      sub_of_y.compat sub_of_y.vend sub_of_y.subv sub_of_y.impl).1.scmi_quirks_table.map
        (fun d => d.enabled) = [false] ∧
    (scmi_quirks_enable ( scmi_quirks_initialize sub_vendor_table)
      sub_of_y.compat sub_of_y.vend sub_of_y.subv sub_of_y.impl).2 = [] ∧
    scmi_quirk_signature none none (some "sub".toList) ∉
      probe_signatures sub_of_y.compat sub_of_y.vend sub_of_y.subv ∧
    (scmi_quirks_enable ( scmi_quirks_initialize sub_vendor_table)
      (some "x".toList) (some []) (some "sub".toList) 0).1.scmi_quirks_table.map
        (fun d => d.enabled) = [true] := by
  refine ⟨rfl, by decide, by decide, by decide, by decide, by decide⟩

/-- C6: a vendor-level quirk (compatible and sub-vendor NULL, vendor NULL or a
fixed string), indexed and not yet enabled, is enabled and reported by
`scmi_quirks_enable` for every identity whose vendor equals the fixed string
ignoring letter case (any vendor when it is NULL) and whose version is within
the parsed range, whatever the identity's compatible and sub-vendor; with a
version outside the range the call leaves the descriptor as it was. -/
theorem vendor_level_quirk (table : List scmi_quirk) (i : Nat) (q : scmi_quirk)
    (compat vend subv : Option (List Char)) (impl : Nat)
    (hq : table[i]? = some q) (hok : (scmi_quirk_range_parse q).1 = 0)
    (hoff : q.enabled = false)
    (hc : q.compatible = none) (hs : q.sub_vendor_id = none)
    (hv : q.vendor = none ∨
      ∃ V, q.vendor = some V ∧ V.map tolower = (vend.getD []).map tolower) :
    ( scmi_quirks_initialize table).scmi_quirks_table[i]? = some (initialize_quirk q) ∧
    (initialize_quirk q).enabled = false ∧
    (initialize_quirk q).start_range = (scmi_quirk_range_parse q).2.start_range ∧
    (initialize_quirk q).end_range = (scmi_quirk_range_parse q).2.end_range ∧
    ((initialize_quirk q).start_range ≤ impl ∧ impl ≤ (initialize_quirk q).end_range →
      (scmi_quirks_enable ( scmi_quirks_initialize table)
          compat vend subv impl).1.scmi_quirks_table[i]? =
        some (quirk_set_enabled (initialize_quirk q)) ∧
      i ∈ (scmi_quirks_enable ( scmi_quirks_initialize table) compat vend subv impl).2) ∧
    (¬ ((initialize_quirk q).start_range ≤ impl ∧ impl ≤ (initialize_quirk q).end_range) →
      (scmi_quirks_enable ( scmi_quirks_initialize table)
          compat vend subv impl).1.scmi_quirks_table[i]? = some (initialize_quirk q) ∧
      i ∉ (scmi_quirks_enable ( scmi_quirks_initialize table) compat vend subv impl).2) := by
  obtain ⟨hin, hout⟩ := enable_at_built table i q compat vend subv impl hq hok hoff
  have hk : (initialize_quirk q).hkey ∈ probe_signatures compat vend subv := by
    have e : (initialize_quirk q).hkey = scmi_quirk_signature none q.vendor none := by
      rw [initialize_quirk_ok hok, hc, hs]
    rw [e]
    rcases hv with hv | ⟨V, hV, hl⟩
    · rw [hv]; simp [probe_signatures]
    · have : scmi_quirk_signature none q.vendor none = scmi_quirk_signature none vend none := by
        rw [hV]
        exact signature_congr rfl hl rfl
      rw [this]; simp [probe_signatures]
  refine ⟨?_, ?_, ?_, ?_, hin hk, fun hn => hout (fun hh => hn hh.2)⟩
  · rw [initialize_get, hq]; rfl
  · rw [(initialize_quirk_flags q).1]; exact hoff
  · rw [initialize_quirk_ok hok]
  · rw [initialize_quirk_ok hok]

/-- The witnesses of C6: the all-wildcard, unrestricted quirk is enabled by
("x","y","z",42); the quirk with vendor "Acme" and range "100-200" is enabled
by ("whatever","Acme","",150) and not by version 250; both built-in quirks are
enabled by a "QUALCOMM" identity of version 0x20000, and only the first by
version 0x1FFFF. -/
theorem vendor_level_quirk_witness :
    ((scmi_quirks_enable ( scmi_quirks_initialize scmi_quirks_table_init)
      (some "qcom,x1e".toList) (some "QUALCOMM".toList) none 0x20000).1.scmi_quirks_table.map
        (fun d => d.enabled) = [true, true] ∧
    (scmi_quirks_enable ( scmi_quirks_initialize scmi_quirks_table_init)
      (some "qcom,x1e".toList) (some "QUALCOMM".toList) none 0x1FFFF).1.scmi_quirks_table.map
        (fun d => d.enabled) = [true, false]) ∧
    (0 ∈ (scmi_quirks_enable ( scmi_quirks_initialize scenario1_table)
      xyz_42.compat xyz_42.vend xyz_42.subv xyz_42.impl).2 ∧
    (scmi_quirks_enable ( scmi_quirks_initialize scenario1_table)
      xyz_42.compat xyz_42.vend xyz_42.subv xyz_42.impl).1.scmi_quirks_table.map
        (fun d => d.enabled) = [true]) ∧
    (0 ∈ (scmi_quirks_enable ( scmi_quirks_initialize scenario2_table)
      acme_150.compat acme_150.vend acme_150.subv acme_150.impl).2 ∧
    (scmi_quirks_enable ( scmi_quirks_initialize scenario2_table)
      acme_150.compat acme_150.vend acme_150.subv acme_150.impl).1.scmi_quirks_table.map
        (fun d => d.enabled) = [true]) ∧
    (0 ∉ (scmi_quirks_enable ( scmi_quirks_initialize scenario2_table)
      acme_250.compat acme_250.vend acme_250.subv acme_250.impl).2 ∧
    (scmi_quirks_enable ( scmi_quirks_initialize scenario2_table)
      acme_250.compat acme_250.vend acme_250.subv acme_250.impl).1.scmi_quirks_table.map
        (fun d => d.enabled) = [false]) :=
  ⟨⟨by decide, by decide⟩,
    ⟨((vendor_level_quirk scenario1_table 0 _ xyz_42.compat xyz_42.vend xyz_42.subv
        xyz_42.impl rfl (by decide) rfl rfl rfl (Or.inl rfl)).2.2.2.2.1 (by decide)).2,
      by decide⟩,
    ⟨((vendor_level_quirk scenario2_table 0 _ acme_150.compat acme_150.vend acme_150.subv
        acme_150.impl rfl (by decide) rfl rfl rfl
        (Or.inr ⟨"Acme".toList, rfl, by decide⟩)).2.2.2.2.1 (by decide)).2,
      by decide⟩,
    ⟨((vendor_level_quirk scenario2_table 0 _ acme_250.compat acme_250.vend acme_250.subv
        acme_250.impl rfl (by decide) rfl rfl rfl
        (Or.inr ⟨"Acme".toList, rfl, by decide⟩)).2.2.2.2.2 (by decide)).2,
      by decide⟩⟩

/-- C7: over any sequence of serialized `scmi_quirks_enable` calls on a built
index, split anywhere into the calls made so far and the later calls: a flag
that is true stays true after every later call and its descriptor is not
reported again; no descriptor is reported twice over the whole sequence; and a
call reports a descriptor exactly when it flips its flag from false to
true. -/
theorem flags_monotone_once (table : List scmi_quirk) (ids1 ids2 : List scmi_identity)
    (i : Nat) :
    (enabled_at (scmi_quirks_enable_seq ( scmi_quirks_initialize table) ids1).1 i →
      enabled_at (scmi_quirks_enable_seq ( scmi_quirks_initialize table) (ids1 ++ ids2)).1 i ∧
      i ∉ (scmi_quirks_enable_seq
        (scmi_quirks_enable_seq ( scmi_quirks_initialize table) ids1).1 ids2).2) ∧
    (scmi_quirks_enable_seq ( scmi_quirks_initialize table) (ids1 ++ ids2)).2.Nodup ∧
    scmi_quirks_enable_seq ( scmi_quirks_initialize table) (ids1 ++ ids2) =
      ((scmi_quirks_enable_seq
          (scmi_quirks_enable_seq ( scmi_quirks_initialize table) ids1).1 ids2).1,
        (scmi_quirks_enable_seq ( scmi_quirks_initialize table) ids1).2 ++
          (scmi_quirks_enable_seq
            (scmi_quirks_enable_seq ( scmi_quirks_initialize table) ids1).1 ids2).2) ∧
    (∀ (id : scmi_identity) (j : Nat),
      j ∈ (scmi_quirks_enable
          (scmi_quirks_enable_seq ( scmi_quirks_initialize table) ids1).1
          id.compat id.vend id.subv id.impl).2 ↔
        (¬ enabled_at (scmi_quirks_enable_seq ( scmi_quirks_initialize table) ids1).1 j ∧
          enabled_at (scmi_quirks_enable
            (scmi_quirks_enable_seq ( scmi_quirks_initialize table) ids1).1
            id.compat id.vend id.subv id.impl).1 j)) := by
  refine ⟨fun h => ⟨?_, ?_⟩, (enable_seq_log _ _).1, enable_seq_append ids1 ids2 _,
    fun id j => enable_log_iff _ _ _ _ _ j⟩
  · rw [enable_seq_append]
    exact enable_seq_mono ids2 _ i h
  · exact fun hmem => (enable_seq_log ids2 _).2 i hmem h

/-- The witness of C7: the identity of the second scenario has an empty
sub-vendor, so two pairs of its six probes coincide; the quirk is reported
once by the first call and never again. -/
theorem flags_monotone_once_witness :
    (scmi_quirks_enable_seq ( scmi_quirks_initialize scenario2_table) [acme_150]).2 = [0] ∧
    enabled_at (scmi_quirks_enable_seq ( scmi_quirks_initialize scenario2_table)
      ([acme_150] ++ [acme_150, acme_250, xyz_42])).1 0 ∧
    0 ∉ (scmi_quirks_enable_seq
      (scmi_quirks_enable_seq ( scmi_quirks_initialize scenario2_table) [acme_150]).1
      [acme_150, acme_250, xyz_42]).2 ∧
    (scmi_quirks_enable_seq ( scmi_quirks_initialize scenario2_table)
      ([acme_150] ++ [acme_150, acme_250, xyz_42])).2.Nodup :=
  have h := flags_monotone_once scenario2_table [acme_150] [acme_150, acme_250, xyz_42] 0
  ⟨by decide, (h.1 ⟨_, rfl, rfl⟩).1, (h.1 ⟨_, rfl, rfl⟩).2, h.2.1⟩

/-- C8: on a built index with any flags, a second `scmi_quirks_enable` call
with the identical identity reports nothing and leaves the state as the first
call left it. -/
theorem enable_twice (table : List scmi_quirk) (compat vend subv : Option (List Char))
    (impl : Nat) :
    (scmi_quirks_enable
      (scmi_quirks_enable ( scmi_quirks_initialize table) compat vend subv impl).1
      compat vend subv impl).2 = [] ∧
    (scmi_quirks_enable
      (scmi_quirks_enable ( scmi_quirks_initialize table) compat vend subv impl).1
      compat vend subv impl).1 =
      (scmi_quirks_enable ( scmi_quirks_initialize table) compat vend subv impl).1 :=
  enable_idem _ compat vend subv impl

/-- C9: `scmi_quirk_signature` depends only on the lower-cased contents of its
three fields, a NULL field counting as the empty string: two triples whose
fields agree after lower-casing have the same signature; upper-casing or
lower-casing the letters of any field, or writing a NULL field as the empty
string, leaves the signature unchanged; and the signature that the initializer
stores in an indexed descriptor is the value of the same function on the
descriptor's fields, which a lookup with those fields computes first. -/
theorem signature_case_insensitive (c v s c' v' s' : Option (List Char))
    (hc : (c.getD []).map tolower = (c'.getD []).map tolower)
    (hv : (v.getD []).map tolower = (v'.getD []).map tolower)
    (hs : (s.getD []).map tolower = (s'.getD []).map tolower) :
    scmi_quirk_signature c v s = scmi_quirk_signature c' v' s' ∧
    scmi_quirk_signature (c.map (List.map Char.toUpper)) (v.map (List.map Char.toUpper))
      (s.map (List.map Char.toUpper)) = scmi_quirk_signature c v s ∧
    scmi_quirk_signature (c.map (List.map tolower)) (v.map (List.map tolower))
      (s.map (List.map tolower)) = scmi_quirk_signature c v s ∧
    scmi_quirk_signature (some (c.getD [])) (some (v.getD [])) (some (s.getD [])) =
      scmi_quirk_signature c v s ∧
    (∀ (table : List scmi_quirk) (i : Nat) (q : scmi_quirk), table[i]? = some q →
      (scmi_quirk_range_parse q).1 = 0 →
      ∃ d, ( scmi_quirks_initialize table).scmi_quirks_table[i]? = some d ∧
        d.hkey = scmi_quirk_signature q.compatible q.vendor q.sub_vendor_id ∧
        (probe_signatures q.compatible q.vendor q.sub_vendor_id).head? = some d.hkey) := by
  refine ⟨signature_congr hc hv hs, signature_map _ tolower_toUpper,
    signature_map _ tolower_idem, signature_congr rfl rfl rfl, ?_⟩
  intro table i q hq hok
  refine ⟨initialize_quirk q, ?_, ?_, ?_⟩
  · rw [initialize_get, hq]; rfl
  · rw [initialize_quirk_ok hok]
  · rw [initialize_quirk_ok hok]; rfl

/-- The witness of C9: ("Foo","Bar","Baz") and ("foo","bar","baz") have the
same signature. -/
theorem signature_case_insensitive_witness :
    scmi_quirk_signature (some "Foo".toList) (some "Bar".toList) (some "Baz".toList) =
      scmi_quirk_signature (some "foo".toList) (some "bar".toList) (some "baz".toList) :=
  (signature_case_insensitive (some "Foo".toList) (some "Bar".toList) (some "Baz".toList)
    (some "foo".toList) (some "bar".toList) (some "baz".toList)
    (by decide) (by decide) (by decide)).1

/-- C10: the hash in `scmi_quirk_signature` runs over the lower-cased framed
text, and for fields without a '|' two such texts are equal only if the
triples agree field by field after lower-casing, a NULL field counting as the
empty string. -/
theorem framing_separates_fields (c v s c' v' s' : Option (List Char)) :
    scmi_quirk_signature c v s =
      end_name_hash ((lowered_signature c v s).foldl
        (fun hash ch => partial_name_hash ch.toNat hash) 0) ∧
    ('|' ∉ c.getD [] → '|' ∉ v.getD [] → '|' ∉ s.getD [] →
      '|' ∉ c'.getD [] → '|' ∉ v'.getD [] → '|' ∉ s'.getD [] →
      lowered_signature c v s = lowered_signature c' v' s' →
      (c.getD []).map tolower = (c'.getD []).map tolower ∧
      (v.getD []).map tolower = (v'.getD []).map tolower ∧
      (s.getD []).map tolower = (s'.getD []).map tolower) :=
  ⟨signature_eq_hash c v s,
    fun h1 h2 h3 h1' h2' h3' h => lowered_signature_inj h1 h2 h3 h1' h2' h3' h⟩

/-- The witness of C10: ("a","bc",NULL) and ("ab","c",NULL) are framed as the
different texts "|a|bc||" and "|ab|c||"; ("A","bc",NULL) and ("a","BC","") are
framed alike and agree field by field after lower-casing. -/
theorem framing_separates_fields_witness :
    lowered_signature (some "a".toList) (some "bc".toList) none = "|a|bc||".toList ∧
    lowered_signature (some "ab".toList) (some "c".toList) none = "|ab|c||".toList ∧
    lowered_signature (some "a".toList) (some "bc".toList) none ≠
      lowered_signature (some "ab".toList) (some "c".toList) none ∧
    ("A".toList.map tolower = "a".toList.map tolower ∧
      "bc".toList.map tolower = "BC".toList.map tolower ∧
      ([] : List Char).map tolower = ([] : List Char).map tolower) :=
  ⟨by decide, by decide,
    fun h => absurd
      ((framing_separates_fields (some "a".toList) (some "bc".toList) none
        (some "ab".toList) (some "c".toList) none).2
        (by decide) (by decide) (by decide) (by decide) (by decide) (by decide) h).1
      (by decide),
    (framing_separates_fields (some "A".toList) (some "bc".toList) none
      (some "a".toList) (some "BC".toList) (some [])).2
      (by decide) (by decide) (by decide) (by decide) (by decide) (by decide)
      (by decide)⟩

end ScmiQuirks
